import Mathlib

/-!
Shallow embedding of the mffpy blocked-binary codec, container, writer and
metadata logic, with theorems checking the specification's claims against it.

Byte streams are modelled as `List Nat` with every byte below 256.  All
multi-byte words in the format are little-endian; `struct`-style packing of a
signed 32-bit ("i") or 64-bit ("q") word fails when the value is out of range,
while `numpy.astype(int32)` wraps.
-/

namespace Mffpy

/-- Little-endian byte encoding of a natural number in `w` bytes (the layout
produced by `struct.pack` and `numpy.ndarray.tobytes` for unsigned words). -/
def natBytesLE : Nat → Nat → List Nat
  | 0, _ => []
  | w + 1, n => n % 256 :: natBytesLE w (n / 256)

/-- Read `w` little-endian bytes as an unsigned value, returning the value and
the remaining stream; fails on a short stream (as `struct.unpack` does). -/
def readNatLE : Nat → List Nat → Option (Nat × List Nat)
  | 0, s => some (0, s)
  | w + 1, b :: s =>
    match readNatLE w s with
    | some (v, r) => some (b + 256 * v, r)
    | none => none
  | _ + 1, [] => none

/-- Two's-complement reinterpretation of an unsigned 32-bit value. -/
def toSigned32 (u : Nat) : Int :=
  if u < 2 ^ 31 then (u : Int) else (u : Int) - 2 ^ 32

/-- Two's-complement reinterpretation of an unsigned 64-bit value. -/
def toSigned64 (u : Nat) : Int :=
  if u < 2 ^ 63 then (u : Int) else (u : Int) - 2 ^ 64

/-- Read a signed little-endian 32-bit word (`struct` format "i"). -/
def readI32 (s : List Nat) : Option (Int × List Nat) :=
  match readNatLE 4 s with
  | some (v, r) => some (toSigned32 v, r)
  | none => none

/-- Read a signed little-endian 64-bit word (`struct` format "q"). -/
def readI64 (s : List Nat) : Option (Int × List Nat) :=
  match readNatLE 8 s with
  | some (v, r) => some (toSigned64 v, r)
  | none => none

/-- The four little-endian bytes of `z` wrapped to 32 bits
(`numpy.astype(int32)` semantics: wrap, never fail). -/
def int32Wrap (z : Int) : List Nat :=
  natBytesLE 4 (z % 2 ^ 32).toNat

/-- Pack a signed 32-bit word, failing when the value is out of range
(`struct.pack("i", ·)` semantics). -/
def packI32 (z : Int) : Option (List Nat) :=
  if -(2 ^ 31) ≤ z ∧ z < 2 ^ 31 then some (int32Wrap z) else none

/-- The eight little-endian bytes of `z` wrapped to 64 bits. -/
def int64Wrap (z : Int) : List Nat :=
  natBytesLE 8 (z % 2 ^ 64).toNat

/-- Pack a signed 64-bit word, failing when the value is out of range
(`struct.pack("q", ·)` semantics). -/
def packI64 (z : Int) : Option (List Nat) :=
  if -(2 ^ 63) ≤ z ∧ z < 2 ^ 63 then some (int64Wrap z) else none

theorem length_natBytesLE (w n : Nat) : (natBytesLE w n).length = w := by
  induction w generalizing n with
  | zero => rfl
  | succ w ih => simp [natBytesLE, ih]

theorem length_int32Wrap (z : Int) : (int32Wrap z).length = 4 := by
  simp [int32Wrap, length_natBytesLE]

theorem readNatLE_natBytesLE (w n : Nat) (r : List Nat) :
    readNatLE w (natBytesLE w n ++ r) = some (n % 256 ^ w, r) := by
  induction w generalizing n with
  | zero => simp [natBytesLE, readNatLE, Nat.mod_one]
  | succ w ih =>
    simp only [natBytesLE, List.cons_append, readNatLE, List.append_eq]
    rw [ih (n / 256)]
    have h256 : (256 : Nat) ^ (w + 1) = 256 * 256 ^ w := by ring
    have hsplit : n % (256 * 256 ^ w) = n % 256 + 256 * (n / 256 % 256 ^ w) :=
      Nat.mod_mul
    rw [h256, hsplit]

theorem readI32_int32Wrap (z : Int) (r : List Nat)
    (hlo : -(2 ^ 31) ≤ z) (hhi : z < 2 ^ 31) :
    readI32 (int32Wrap z ++ r) = some (z, r) := by
  have hmod : (z % 2 ^ 32).toNat % 256 ^ 4 = (z % 2 ^ 32).toNat := by
    have h : (256 : Nat) ^ 4 = 2 ^ 32 := by norm_num
    rw [h]
    omega
  have hts : toSigned32 (z % 2 ^ 32).toNat = z := by
    unfold toSigned32
    split <;> omega
  unfold readI32 int32Wrap
  rw [readNatLE_natBytesLE, hmod]
  simp only [hts]

theorem readI64_int64Wrap (z : Int) (r : List Nat)
    (hlo : -(2 ^ 63) ≤ z) (hhi : z < 2 ^ 63) :
    readI64 (int64Wrap z ++ r) = some (z, r) := by
  have hmod : (z % 2 ^ 64).toNat % 256 ^ 8 = (z % 2 ^ 64).toNat := by
    have h : (256 : Nat) ^ 8 = 2 ^ 64 := by norm_num
    rw [h]
    omega
  have hts : toSigned64 (z % 2 ^ 64).toNat = z := by
    unfold toSigned64
    split <;> omega
  unfold readI64 int64Wrap
  rw [readNatLE_natBytesLE, hmod]
  simp only [hts]

theorem packI32_eq (z : Int) (hlo : -(2 ^ 31) ≤ z) (hhi : z < 2 ^ 31) :
    packI32 z = some (int32Wrap z) := by
  unfold packI32
  rw [if_pos ⟨hlo, hhi⟩]

theorem packI64_eq (z : Int) (hlo : -(2 ^ 63) ≤ z) (hhi : z < 2 ^ 63) :
    packI64 z = some (int64Wrap z) := by
  unfold packI64
  rw [if_pos ⟨hlo, hhi⟩]

/-- Skipping bytes models `fp.seek(n, SEEK_CUR)`.  The embedding keeps only
the unread suffix of the stream, so it supports forward seeks; a negative
skip is mapped to a failure (no call site of the claims reaches one). -/
def skipBytes (n : Int) (s : List Nat) : Option (List Nat) :=
  if 0 ≤ n then some (s.drop n.toNat) else none

/-! ### HeaderBlock codec (`src/mffpy/header_block/`) -/

/-- Fields of `optional_header_block.Type1Block`. -/
structure Type1Block where
  total_num_blocks : Int
  total_num_samples : Int
  total_num_signals : Int
  deriving DecidableEq, Repr

/-- Optional trailer of a header block: absent (`NoOptHeaderBlock`) or a
type-1 statistics block (`Type1Block`). -/
inductive OptHeader where
  | noBlock : OptHeader
  | type1 : Type1Block → OptHeader
  deriving DecidableEq, Repr

/-- The `byte_size` class attribute of the two optional header classes. -/
def OptHeader.byteSize : OptHeader → Int
  | .noBlock => 0
  | .type1 _ => 24

/-- `NoOptHeaderBlock.write` / `Type1Block.write`: the bytes appended for the
optional header.  `Type1Block.write` packs `"2i2qi"` with content
`(byte_size, 1, *fields)`. -/
def OptHeader.writeBytes : OptHeader → Option (List Nat)
  | .noBlock => packI32 0
  | .type1 b =>
    match packI32 24, packI32 1, packI64 b.total_num_blocks,
        packI64 b.total_num_samples, packI32 b.total_num_signals with
    | some w0, some w1, some w2, some w3, some w4 =>
      some (w0 ++ w1 ++ w2 ++ w3 ++ w4)
    | _, _, _, _, _ => none

/-- `optional_header_block.from_file`: read the byte length, then the type
word when the length is non-zero; dispatch on the type (unknown types raise
`ValueError`). -/
def optHeaderFromFile (s : List Nat) : Option (OptHeader × List Nat) :=
  match readI32 s with
  | none => none
  | some (byteSize, s1) =>
    if byteSize = 0 then
      some (.noBlock, s1)
    else
      match readI32 s1 with
      | none => none
      | some (typ, s2) =>
        if typ = 0 then some (.noBlock, s2)
        else if typ = 1 then
          match readI64 s2 with
          | none => none
          | some (b1, s3) =>
            match readI64 s3 with
            | none => none
            | some (b2, s4) =>
              match readI32 s4 with
              | none => none
              | some (b3, s5) => some (.type1 ⟨b1, b2, b3⟩, s5)
        else none

/-- The named tuple `header_block.HeaderBlock`. -/
structure HeaderBlock where
  header_size : Int
  block_size : Int
  num_channels : Int
  num_samples : Int
  sampling_rate : Int
  optional_header : OptHeader
  deriving DecidableEq, Repr

/-- `HeaderBlock.compute_byte_size`. -/
def computeByteSize (num_channels : Int) (opt : OptHeader) : Int :=
  4 * (5 + 2 * num_channels) + opt.byteSize

/-- `HeaderBlock.__new__`: checks a caller-supplied `header_size` against the
computed one (`if header_size and header_size != computed_size: raise`), then
stores the computed size. -/
def mkHeaderBlock (block_size num_channels num_samples sampling_rate : Int)
    (header_size : Option Int) (optional_header : OptHeader) :
    Option HeaderBlock :=
  let computed := computeByteSize num_channels optional_header
  if header_size.getD 0 ≠ 0 ∧ header_size.getD 0 ≠ computed then none
  else some ⟨computed, block_size, num_channels, num_samples, sampling_rate,
    optional_header⟩

/-- `HeaderBlock.encode_rate_depth`: asserts `depth < 2^8` and
`rate < 2^24`, then returns `(rate << 8) + depth`. -/
def encodeRateDepth (rate depth : Int) : Option Int :=
  if depth < 2 ^ 8 ∧ rate < 2 ^ 24 then some (rate * 2 ^ 8 + depth) else none

/-- `HeaderBlock.decode_rate_depth`: `rate = x >> 8` and `depth = x & 0xff`.
On a Python int the arithmetic shift is floor division by 256 and the mask
is the nonnegative remainder, which for the positive constant 256 agree with
Lean's `Int` division and remainder. -/
def decodeRateDepth (x : Int) : Int × Int :=
  (x / 2 ^ 8, x % 2 ^ 8)

/-- `HeaderBlock.write`: flag word 1, the three size words (via
`struct.pack("4i", ...)`), the per-channel byte-offset table (a
`numpy.int32` array, which wraps), the per-channel rate/depth table, and the
optional header.  The rate/depth word is placed in an int32 array: a value
outside the signed 32-bit range cannot be stored in that 4-byte layout
(current `numpy` raises `OverflowError`; legacy `numpy` would silently widen
the array, also breaking the 4-byte word layout), which the model maps to a
packing failure. -/
def HeaderBlock.writeBytes (hb : HeaderBlock) : Option (List Nat) :=
  match packI32 1, packI32 hb.header_size, packI32 hb.block_size,
      packI32 hb.num_channels with
  | some w0, some w1, some w2, some w3 =>
    let ns := (hb.block_size.fdiv hb.num_channels).fdiv 4
    let offsets := (List.range hb.num_channels.toNat).map
      fun i : Nat => int32Wrap (4 * ns * (i : Int))
    match encodeRateDepth hb.sampling_rate 32 with
    | none => none
    | some srd =>
      match packI32 srd, hb.optional_header.writeBytes with
      | some srdWord, some optB =>
        some (w0 ++ w1 ++ w2 ++ w3 ++ offsets.flatten ++
          (List.replicate hb.num_channels.toNat srdWord).flatten ++ optB)
      | _, _ => none
  | _, _, _, _ => none

/-- `HeaderBlock.from_file`: `none` models a raised exception,
`some (none, rest)` the `return None` on a zero flag word, and
`some (some hb, rest)` a decoded header.  A zero channel count raises
`ZeroDivisionError` in the source; the assert checks `depth == 32`. -/
def HeaderBlock.fromFile (s : List Nat) :
    Option (Option HeaderBlock × List Nat) :=
  match readI32 s with
  | none => none
  | some (flag, s1) =>
    if flag = 0 then some (none, s1)
    else
      match readI32 s1 with
      | none => none
      | some (header_size, s2) =>
        match readI32 s2 with
        | none => none
        | some (block_size, s3) =>
          match readI32 s3 with
          | none => none
          | some (num_channels, s4) =>
            if num_channels = 0 then none
            else
              let num_samples := (block_size.fdiv num_channels).fdiv 4
              match skipBytes (4 * num_channels) s4 with
              | none => none
              | some s5 =>
                match readI32 s5 with
                | none => none
                | some (srd, s6) =>
                  let rd := decodeRateDepth srd
                  match skipBytes (4 * (num_channels - 1)) s6 with
                  | none => none
                  | some s7 =>
                    if rd.2 ≠ 32 then none
                    else
                      match optHeaderFromFile s7 with
                      | none => none
                      | some (optional_header, s8) =>
                        match mkHeaderBlock block_size num_channels
                          num_samples rd.1 (some header_size)
                          optional_header with
                        | none => none
                        | some hb => some (some hb, s8)

/-- Ranges in which `struct.pack` accepts the fields of the optional header
("2i2qi": two 64-bit and one 32-bit signed words for a type-1 block). -/
def optFieldsOk : OptHeader → Prop
  | .noBlock => True
  | .type1 b =>
    -(2 ^ 63) ≤ b.total_num_blocks ∧ b.total_num_blocks < 2 ^ 63 ∧
    -(2 ^ 63) ≤ b.total_num_samples ∧ b.total_num_samples < 2 ^ 63 ∧
    -(2 ^ 31) ≤ b.total_num_signals ∧ b.total_num_signals < 2 ^ 31

theorem optHeader_roundtrip (o : OptHeader) (h : optFieldsOk o)
    (r : List Nat) :
    ∃ ob, o.writeBytes = some ob ∧ optHeaderFromFile (ob ++ r) = some (o, r) := by
  cases o with
  | noBlock =>
    refine ⟨int32Wrap 0, ?_, ?_⟩
    · simp only [OptHeader.writeBytes,
        packI32_eq 0 (by norm_num) (by norm_num)]
    · simp only [optHeaderFromFile,
        readI32_int32Wrap 0 r (by norm_num) (by norm_num)]
      norm_num
  | type1 b =>
    obtain ⟨h1, h2, h3, h4, h5, h6⟩ := h
    refine ⟨int32Wrap 24 ++ int32Wrap 1 ++ int64Wrap b.total_num_blocks ++
      int64Wrap b.total_num_samples ++ int32Wrap b.total_num_signals, ?_, ?_⟩
    · simp only [OptHeader.writeBytes,
        packI32_eq 24 (by norm_num) (by norm_num),
        packI32_eq 1 (by norm_num) (by norm_num),
        packI64_eq b.total_num_blocks h1 h2,
        packI64_eq b.total_num_samples h3 h4,
        packI32_eq b.total_num_signals h5 h6]
    · simp only [List.append_assoc, optHeaderFromFile,
        readI32_int32Wrap 24 _ (by norm_num) (by norm_num),
        readI32_int32Wrap 1 _ (by norm_num) (by norm_num),
        readI64_int64Wrap b.total_num_blocks _ h1 h2,
        readI64_int64Wrap b.total_num_samples _ h3 h4,
        readI32_int32Wrap b.total_num_signals _ h5 h6]
      norm_num

theorem flatten_length_const (L : List (List Nat)) (k : Nat)
    (h : ∀ x ∈ L, x.length = k) : L.flatten.length = k * L.length := by
  induction L with
  | nil => simp
  | cons a t ih =>
    simp only [List.flatten_cons, List.length_append, List.length_cons]
    rw [h a (by simp), ih fun x hx => h x (by simp [hx])]
    ring

theorem drop_flatten_const (L : List (List Nat)) (k : Nat) (r : List Nat)
    (h : ∀ x ∈ L, x.length = k) :
    (L.flatten ++ r).drop (k * L.length) = r := by
  rw [← flatten_length_const L k h, List.drop_left]

/--
C1 (counterexample): the claim quantifies over every `HeaderBlock` with
`sampling_rate < 2 ^ 24`, but for `sampling_rate = 2 ^ 23` the packed
rate/depth word `(rate << 8) + 32 = 2 ^ 31 + 32` no longer fits the signed
32-bit word of the per-channel table, so `HeaderBlock.write` cannot even
produce the byte stream, and no decoding can reproduce the fields.
-/
theorem headerBlock_roundtrip_cex :
    HeaderBlock.writeBytes ⟨28, 4, 1, 1, 2 ^ 23, .noBlock⟩ = none ∧
    (2 : Int) ^ 23 < 2 ^ 24 ∧
    (28 : Int) = computeByteSize 1 .noBlock ∧
    (4 : Int) = 4 * 1 * 1 := by
  refine ⟨?_, by norm_num, by norm_num [computeByteSize, OptHeader.byteSize],
    by norm_num⟩
  rfl

/--
C1 (amended): for every `HeaderBlock` with `sampling_rate` below `2 ^ 23`
(so that the packed rate/depth word fits a signed 32-bit integer), depth 32
and `block_size = 4 * num_channels * num_samples`, writing the header and
payload and then decoding with `HeaderBlock.from_file` reproduces the very
same header fields — in particular `num_samples`, `num_channels` and
`sampling_rate` — and leaves the byte-identical payload.
-/
theorem headerBlock_roundtrip (hb : HeaderBlock) (payload : List Nat)
    (hnc : 1 ≤ hb.num_channels)
    (hns : 0 ≤ hb.num_samples)
    (hsr0 : 0 ≤ hb.sampling_rate) (hsr : hb.sampling_rate < 2 ^ 23)
    (hbs : hb.block_size = 4 * hb.num_channels * hb.num_samples)
    (hbs31 : hb.block_size < 2 ^ 31)
    (hhs : hb.header_size = computeByteSize hb.num_channels hb.optional_header)
    (hhs31 : hb.header_size < 2 ^ 31)
    (hopt : optFieldsOk hb.optional_header) :
    ∃ bs, hb.writeBytes = some bs ∧
      HeaderBlock.fromFile (bs ++ payload) = some (some hb, payload) := by
  obtain ⟨hs, bs, nc, ns, sr, opt⟩ := hb
  simp only at hnc hns hsr0 hsr hbs hbs31 hhs hhs31 hopt
  subst hbs hhs
  obtain ⟨ob, how, hor⟩ := optHeader_roundtrip opt hopt payload
  have hob : opt.byteSize = 0 ∨ opt.byteSize = 24 := by
    cases opt <;> simp [OptHeader.byteSize]
  have hnc31 : nc < 2 ^ 28 := by
    unfold computeByteSize at hhs31
    omega
  have hbs0 : 0 ≤ 4 * nc * ns :=
    mul_nonneg (mul_nonneg (by norm_num) (by omega)) hns
  have hnsw : ((4 * nc * ns).fdiv nc).fdiv 4 = ns := by
    rw [Int.fdiv_eq_ediv _ (by omega : (0 : Int) ≤ nc),
      Int.fdiv_eq_ediv _ (by norm_num : (0 : Int) ≤ 4)]
    have h1 : 4 * nc * ns = nc * (4 * ns) := by ring
    rw [h1, Int.mul_ediv_cancel_left _ (by omega : nc ≠ 0),
      Int.mul_ediv_cancel_left _ (by norm_num : (4 : Int) ≠ 0)]
  have hsrd : encodeRateDepth sr 32 = some (sr * 2 ^ 8 + 32) := by
    unfold encodeRateDepth
    rw [if_pos ⟨by norm_num, by omega⟩]
  have hcb0 : 0 ≤ computeByteSize nc opt := by
    unfold computeByteSize
    omega
  have hw : HeaderBlock.writeBytes
      ⟨computeByteSize nc opt, 4 * nc * ns, nc, ns, sr, opt⟩ =
      some (int32Wrap 1 ++ int32Wrap (computeByteSize nc opt) ++
        int32Wrap (4 * nc * ns) ++ int32Wrap nc ++
        ((List.range nc.toNat).map
          fun i : Nat => int32Wrap (4 * ns * (i : Int))).flatten ++
        (List.replicate nc.toNat (int32Wrap (sr * 2 ^ 8 + 32))).flatten ++
        ob) := by
    unfold HeaderBlock.writeBytes
    simp only [packI32_eq 1 (by norm_num) (by norm_num),
      packI32_eq (computeByteSize nc opt) (by omega) (by omega),
      packI32_eq (4 * nc * ns) (by omega) (by omega),
      packI32_eq nc (by omega) (by omega), hsrd,
      packI32_eq (sr * 2 ^ 8 + 32) (by omega) (by omega), how, hnsw]
  refine ⟨_, hw, ?_⟩
  obtain ⟨m, hm⟩ : ∃ m, nc.toNat = m + 1 := ⟨nc.toNat - 1, by omega⟩
  have hlen1 : ∀ x ∈ (List.range nc.toNat).map
      (fun i : Nat => int32Wrap (4 * ns * (i : Int))), x.length = 4 := by
    intro x hx
    simp only [List.mem_map] at hx
    obtain ⟨i, _, rfl⟩ := hx
    exact length_int32Wrap _
  have hdrop1 : ∀ r : List Nat,
      (((List.range nc.toNat).map
        (fun i : Nat => int32Wrap (4 * ns * (i : Int)))).flatten ++ r).drop
        (4 * nc).toNat = r := by
    intro r
    have h1 : (4 * nc).toNat = 4 * ((List.range nc.toNat).map
        (fun i : Nat => int32Wrap (4 * ns * (i : Int)))).length := by
      simp only [List.length_map, List.length_range]
      omega
    rw [h1, drop_flatten_const _ 4 r hlen1]
  have hlen2 : ∀ x ∈ List.replicate m (int32Wrap (sr * 2 ^ 8 + 32)),
      x.length = 4 := by
    intro x hx
    rw [List.eq_of_mem_replicate hx]
    exact length_int32Wrap _
  have hdrop2 : ∀ r : List Nat,
      ((List.replicate m (int32Wrap (sr * 2 ^ 8 + 32))).flatten ++ r).drop
        (4 * (nc - 1)).toNat = r := by
    intro r
    have h1 : (4 * (nc - 1)).toNat = 4 *
        (List.replicate m (int32Wrap (sr * 2 ^ 8 + 32))).length := by
      simp only [List.length_replicate]
      omega
    rw [h1, drop_flatten_const _ 4 r hlen2]
  have hrd : decodeRateDepth (sr * 2 ^ 8 + 32) = (sr, 32) := by
    unfold decodeRateDepth
    have h1 : (sr * 2 ^ 8 + 32) / 2 ^ 8 = sr := by omega
    have h2 : (sr * 2 ^ 8 + 32) % 2 ^ 8 = 32 := by omega
    rw [h1, h2]
  have hmk : mkHeaderBlock (4 * nc * ns) nc (((4 * nc * ns).fdiv nc).fdiv 4)
      sr (some (computeByteSize nc opt)) opt =
      some ⟨computeByteSize nc opt, 4 * nc * ns, nc, ns, sr, opt⟩ := by
    rw [hnsw]
    unfold mkHeaderBlock
    rw [if_neg]
    intro hcon
    exact hcon.2 (by simp)
  unfold HeaderBlock.fromFile
  simp only [List.append_assoc]
  simp only [readI32_int32Wrap 1 _ (by norm_num) (by norm_num),
    if_neg (by norm_num : ¬(1 : Int) = 0)]
  simp only [readI32_int32Wrap (computeByteSize nc opt) _ (by omega) (by omega)]
  simp only [readI32_int32Wrap (4 * nc * ns) _ (by omega) (by omega)]
  simp only [readI32_int32Wrap nc _ (by omega) (by omega),
    if_neg (by omega : ¬nc = 0)]
  simp only [skipBytes, if_pos (by omega : (0 : Int) ≤ 4 * nc), hdrop1]
  rw [hm, List.replicate_succ, List.flatten_cons, List.append_assoc]
  simp only [readI32_int32Wrap (sr * 2 ^ 8 + 32) _ (by omega) (by omega)]
  simp only [if_pos (by omega : (0 : Int) ≤ 4 * (nc - 1)), hdrop2, hrd]
  simp only [if_neg (by norm_num : ¬(32 : Int) ≠ 32), hor, hmk]

/-- C1 witness: a concrete header (2 channels, 5 samples per channel,
100 Hz, no optional trailer) with a 3-byte payload round-trips. -/
theorem headerBlock_roundtrip_witness :
    ∃ bs, HeaderBlock.writeBytes ⟨36, 40, 2, 5, 100, .noBlock⟩ = some bs ∧
      HeaderBlock.fromFile (bs ++ [7, 8, 9]) =
        some (some ⟨36, 40, 2, 5, 100, .noBlock⟩, [7, 8, 9]) :=
  headerBlock_roundtrip ⟨36, 40, 2, 5, 100, .noBlock⟩ [7, 8, 9]
    (by norm_num) (by norm_num) (by norm_num) (by norm_num) (by norm_num)
    (by norm_num)
    (by norm_num [computeByteSize, OptHeader.byteSize]) (by norm_num)
    trivial

/-! ### Epochs and the BinWriter state machine (`src/mffpy/epoch.py`,
`src/mffpy/bin_writer.py`) -/

/-- `epoch.Epoch`: begin and end times in microseconds, a 1-based inclusive
block span, and a display name defaulting to the class attribute
`name = 'epoch'`. -/
structure Epoch where
  beginTime : Int
  endTime : Int
  firstBlock : Int
  lastBlock : Int
  name : String := "epoch"
  deriving DecidableEq, Repr

/-- `Epoch.add_block`: `lastBlock += 1; endTime += duration`. -/
def Epoch.addBlock (e : Epoch) (duration : Int) : Epoch :=
  { e with lastBlock := e.lastBlock + 1, endTime := e.endTime + duration }

/-- Mutable state of a `bin_writer.BinWriter`: the fixed sampling rate, the
current header (or none before the first block), the bytes written to the
stream so far, and the epoch list. -/
structure BinWriterState where
  sampling_rate : Int
  header : Option HeaderBlock
  stream : List Nat
  epochs : List Epoch
  deriving DecidableEq, Repr

/-- `BinWriter.__init__(sampling_rate, data_type)`. -/
def mkBinWriter (sampling_rate : Int) : BinWriterState :=
  ⟨sampling_rate, none, [], []⟩

/-- The epoch-list update performed by `BinWriter._add_block_to_epochs`.
`duration_us` in the source is `int(10**6 * num_samples / sampling_rate)`;
on exact arithmetic the truncation of that nonnegative quotient is the
floor division modelled here. -/
def epochsAfterAdd (sampling_rate : Int) (epochs : List Epoch)
    (num_samples : Int) (offset_us : Option Int) : List Epoch :=
  let duration_us := (10 ^ 6 * num_samples).fdiv sampling_rate
  if epochs = [] then
    -- `offset_us = offset_us or 0`: `None` (and 0 itself) becomes 0
    let off := offset_us.getD 0
    [⟨off, off + duration_us, 1, 1, "epoch"⟩]
  else
    match epochs.getLast? with
    | none => epochs
    | some prev =>
      match offset_us with
      | some off =>
        -- `isinstance(offset_us, int)`: create a new epoch
        let beginTime := prev.endTime + off
        let blockIdx := prev.lastBlock + 1
        epochs ++
          [⟨beginTime, beginTime + duration_us, blockIdx, blockIdx, "epoch"⟩]
      | none =>
        -- add block to the current epoch
        epochs.dropLast ++ [prev.addBlock duration_us]

/-- `BinWriter._add_block_to_epochs`: mutates only the epoch list. -/
def addBlockToEpochs (w : BinWriterState) (num_samples : Int)
    (offset_us : Option Int) : BinWriterState :=
  { w with epochs :=
      epochsAfterAdd w.sampling_rate w.epochs num_samples offset_us }

/-- The guard `if offset_us and offset_us < 0` of `BinWriter.add_block`:
`offset_us` must be truthy (not `None`, non-zero) and negative. -/
def negOffsetGuard (offset_us : Option Int) : Bool :=
  match offset_us with
  | some k => k != 0 && decide (k < 0)
  | none => false

/-- The header update of `BinWriter.add_block`: the first block creates the
header (`header_size` computed), later blocks assert the channel count and
rebuild the header passing the previous `header_size` through the
consistency check.  `none` models the raised `AssertionError`/`ValueError`,
both of which fire before `self.header` is reassigned. -/
def updatedHeader (w : BinWriterState) (num_channels num_samples : Int) :
    Option HeaderBlock :=
  match w.header with
  | none =>
    mkHeaderBlock (4 * (num_channels * num_samples)) num_channels
      num_samples w.sampling_rate none .noBlock
  | some hdr =>
    if num_channels ≠ hdr.num_channels then none
    else
      mkHeaderBlock (4 * (num_channels * num_samples)) num_channels
        num_samples w.sampling_rate (some hdr.header_size) .noBlock

/-- `BinWriter.add_block(data, offset_us)` on a data array of shape
`(num_channels, num_samples)` whose sample words are `payload`.  Returns the
error message and the state at the point an exception was raised (the
negative-offset guard and the channel-count assert fire before any
mutation; a header-write failure happens after `self.header` was
reassigned), or `none` and the final state. -/
def addBlock (w : BinWriterState) (num_channels num_samples : Int)
    (payload : List Nat) (offset_us : Option Int) :
    Option String × BinWriterState :=
  if negOffsetGuard offset_us then
    (some "ValueError: offset_us cannot be negative", w)
  else
    match updatedHeader w num_channels num_samples with
    | none => (some "AssertionError or ValueError in header update", w)
    | some hdr =>
      match hdr.writeBytes with
      | none =>
        (some "OverflowError writing header", { w with header := some hdr })
      | some hb =>
        (none, addBlockToEpochs
          { w with
            header := some hdr
            stream := w.stream ++ hb ++ payload }
          num_samples offset_us)

/--
C8: for every writer state and every negative `offset_us`, `add_block`
raises (`ValueError`, the spec's `InvalidArgument`) synchronously, and the
writer state — header, stream and epochs — is exactly the input state.
-/
theorem addBlock_neg_offset (w : BinWriterState) (C S : Int)
    (p : List Nat) (k : Int) (hk : k < 0) :
    (addBlock w C S p (some k)).1 =
      some "ValueError: offset_us cannot be negative" ∧
    (addBlock w C S p (some k)).2 = w := by
  have hguard : negOffsetGuard (some k) = true := by
    unfold negOffsetGuard
    simp only [bne_iff_ne, ne_eq, Bool.and_eq_true, decide_eq_true_eq]
    omega
  unfold addBlock
  rw [if_pos hguard]
  exact ⟨rfl, rfl⟩

/-- C8 witness. -/
theorem addBlock_neg_offset_witness :
    (addBlock (mkBinWriter 100) 2 3 [] (some (-5))).1 =
      some "ValueError: offset_us cannot be negative" ∧
    (addBlock (mkBinWriter 100) 2 3 [] (some (-5))).2 = mkBinWriter 100 :=
  addBlock_neg_offset (mkBinWriter 100) 2 3 [] (-5) (by norm_num)

theorem addBlock_ok_epochs (w : BinWriterState) (C S : Int) (p : List Nat)
    (off : Option Int) (w' : BinWriterState)
    (h : addBlock w C S p off = (none, w')) :
    w'.epochs = epochsAfterAdd w.sampling_rate w.epochs S off := by
  unfold addBlock at h
  split at h
  · exact absurd (congrArg Prod.fst h) (by simp)
  · split at h
    · exact absurd (congrArg Prod.fst h) (by simp)
    · split at h
      · exact absurd (congrArg Prod.fst h) (by simp)
      · have h2 := congrArg Prod.snd h
        simp only at h2
        rw [← h2]
        rfl

/--
C3: epoch bookkeeping of `BinWriter.add_block` on a successful call.  With
at least one block already added (the epoch list ends in `prev`):
`offset_us = None` extends the current epoch by
`S · 10⁶ / sampling_rate` microseconds and increments its `lastBlock`;
`offset_us = 0` starts a new epoch immediately after the previous one
(`beginTime = prev.endTime`) with `firstBlock = prev.lastBlock + 1`;
`offset_us = k > 0` starts a new epoch at `beginTime = prev.endTime + k`.
For the very first block, `offset_us = None` is treated as 0.
-/
theorem addBlock_offset_semantics (w : BinWriterState) (C S : Int)
    (p : List Nat) (prev : Epoch) (rest : List Epoch)
    (hep : w.epochs = rest ++ [prev]) :
    (∀ w', addBlock w C S p none = (none, w') →
      w'.epochs = rest ++ [{ prev with
        endTime := prev.endTime + (10 ^ 6 * S).fdiv w.sampling_rate,
        lastBlock := prev.lastBlock + 1 }]) ∧
    (∀ w', addBlock w C S p (some 0) = (none, w') →
      w'.epochs = rest ++ [prev] ++
        [⟨prev.endTime, prev.endTime + (10 ^ 6 * S).fdiv w.sampling_rate,
          prev.lastBlock + 1, prev.lastBlock + 1, "epoch"⟩]) ∧
    (∀ k w', 0 < k → addBlock w C S p (some k) = (none, w') →
      w'.epochs = rest ++ [prev] ++
        [⟨prev.endTime + k,
          prev.endTime + k + (10 ^ 6 * S).fdiv w.sampling_rate,
          prev.lastBlock + 1, prev.lastBlock + 1, "epoch"⟩]) ∧
    (∀ w0 w' : BinWriterState, w0.epochs = [] →
      addBlock w0 C S p none = (none, w') →
      w'.epochs = [⟨0, (10 ^ 6 * S).fdiv w0.sampling_rate, 1, 1, "epoch"⟩]) := by
  have hne : rest ++ [prev] ≠ [] := by simp
  have hlast : (rest ++ [prev]).getLast? = some prev := by
    rw [List.getLast?_concat]
  have hdrop : (rest ++ [prev]).dropLast = rest := by
    rw [List.dropLast_concat]
  refine ⟨?_, ?_, ?_, ?_⟩
  · intro w' h
    rw [addBlock_ok_epochs w C S p none w' h, hep]
    unfold epochsAfterAdd
    rw [if_neg hne, hlast]
    simp only [hdrop, Epoch.addBlock]
  · intro w' h
    rw [addBlock_ok_epochs w C S p (some 0) w' h, hep]
    unfold epochsAfterAdd
    rw [if_neg hne, hlast]
    simp only [List.append_assoc, add_zero]
  · intro k w' _ h
    rw [addBlock_ok_epochs w C S p (some k) w' h, hep]
    unfold epochsAfterAdd
    rw [if_neg hne, hlast]
  · intro w0 w' hep0 h
    rw [addBlock_ok_epochs w0 C S p none w' h, hep0]
    unfold epochsAfterAdd
    rw [if_pos rfl]
    simp only [Option.getD_none, zero_add]

/-- C3 witness: a writer at 1000 Hz with one 5-sample block already added
(its only epoch spans 5000 μs and covers block 1); adding a block with
`offset_us = 700` starts a new epoch at 5700 μs covering block 2. -/
theorem addBlock_offset_semantics_witness :
    (addBlock (addBlock (mkBinWriter 1000) 2 5 (List.replicate 40 0) none).2
      2 5 (List.replicate 40 0) (some 700)).2.epochs =
      [⟨0, 5000, 1, 1, "epoch"⟩, ⟨5700, 10700, 2, 2, "epoch"⟩] := by
  have hth := (addBlock_offset_semantics
    ((addBlock (mkBinWriter 1000) 2 5 (List.replicate 40 0) none).2)
    2 5 (List.replicate 40 0) ⟨0, 5000, 1, 1, "epoch"⟩ [] (by rfl)).2.2.1
  have h := hth 700
    ((addBlock (addBlock (mkBinWriter 1000) 2 5 (List.replicate 40 0) none).2
      2 5 (List.replicate 40 0) (some 700)).2) (by norm_num) (by rfl)
  rw [h]
  rfl

/-! ### FileParts over an archive (`src/mffpy/zipfile.py`)

`ZipFile.open` constructs, for every call, a `FilePart` holding a fresh OS
file handle (`self.fp = open(filename, 'rb')`) over the immutable archive
file, confined to the entry's byte range `[start, end)`.  A `FilePart` is
therefore modelled by its range and its own cursor over the shared read-only
archive bytes. -/

/-- `zipfile.FilePart`: entry range `[start, end)` (the Python attribute
`end` is a Lean keyword, hence `endByte`) and the position of the private
file handle.  `__init__` seeks to the part's beginning. -/
structure FilePart where
  start : Int
  endByte : Int
  fpPos : Int
  deriving DecidableEq, Repr

/-- `FilePart.__init__(filename, start, end)` followed by `self.seek(0)`. -/
def FilePart.init (start endByte : Int) : FilePart :=
  ⟨start, endByte, start⟩

/-- A raw `fp.read(n)` on the archive: a negative `n` reads to the end of
the file, otherwise up to `n` bytes from the current offset; the offset
advances past the bytes read. -/
def fileRead (archive : List Nat) (pos : Int) (n : Int) : List Nat × Int :=
  if n < 0 then
    (archive.drop pos.toNat, max pos archive.length)
  else
    let bs := (archive.drop pos.toNat).take n.toNat
    (bs, pos + bs.length)

/-- `FilePart.read(n)`: clamp `n` to `end - fp.tell()`; when the clamped
count is negative, fall back to `fp.read(nmax)`. -/
def FilePart.read (fp : FilePart) (archive : List Nat) (n : Int) :
    List Nat × FilePart :=
  let nmax := fp.endByte - fp.fpPos
  let n2 := min n nmax
  if 0 ≤ n2 then
    let r := fileRead archive fp.fpPos n2
    (r.1, { fp with fpPos := r.2 })
  else
    let r := fileRead archive fp.fpPos nmax
    (r.1, { fp with fpPos := r.2 })

/-- `FilePart.tell()`: cursor relative to the part's start. -/
def FilePart.tell (fp : FilePart) : Int :=
  fp.fpPos - fp.start

/-- `FilePart.seek(pos, whence)`: whence 0 is relative to `start`, 1 to the
current position, 2 to `end`; any other whence raises `ValueError`, and the
underlying `fp.seek` raises `OSError` on a negative target. -/
def FilePart.seek (fp : FilePart) (pos : Int) (whence : Int) :
    Option FilePart :=
  if whence = 0 then
    if 0 ≤ fp.start + pos then some { fp with fpPos := fp.start + pos }
    else none
  else if whence = 1 then
    if 0 ≤ fp.fpPos + pos then some { fp with fpPos := fp.fpPos + pos }
    else none
  else if whence = 2 then
    if 0 ≤ fp.endByte + pos then some { fp with fpPos := fp.endByte + pos }
    else none
  else none

/-- One cursor operation on a `FilePart`. -/
inductive FpOp where
  | seekTo (pos whence : Int)
  | readN (n : Int)
  | tellPos
  deriving DecidableEq, Repr

/-- Apply one operation to one `FilePart` (a failed seek raises before
moving the cursor, so the state is kept). -/
def applyOp (archive : List Nat) (fp : FilePart) : FpOp → FilePart
  | .seekTo p w => (fp.seek p w).getD fp
  | .readN n => (fp.read archive n).2
  | .tellPos => fp

/-- Apply a sequence of operations to one `FilePart`. -/
def applyOps (archive : List Nat) (fp : FilePart) (ops : List FpOp) :
    FilePart :=
  ops.foldl (applyOp archive) fp

/-- Apply one tagged operation to a pair of `FilePart`s opened from the same
archive: `false` targets the first part, `true` the second.  Each part owns
its file handle, so the operation only touches its own component. -/
def twoPartsApply (archive : List Nat) (st : FilePart × FilePart) :
    Bool × FpOp → FilePart × FilePart
  | (false, op) => (applyOp archive st.1 op, st.2)
  | (true, op) => (st.1, applyOp archive st.2 op)

/-- The operations of an interleaved trace aimed at one side. -/
def opsFor (side : Bool) (ops : List (Bool × FpOp)) : List FpOp :=
  (ops.filter fun p => p.1 = side).map Prod.snd

theorem opsFor_cons (side b : Bool) (op : FpOp) (t : List (Bool × FpOp)) :
    opsFor side ((b, op) :: t) =
      if b = side then op :: opsFor side t else opsFor side t := by
  unfold opsFor
  by_cases h : b = side
  · rw [if_pos h]
    simp [List.filter_cons, h]
  · rw [if_neg h]
    simp [List.filter_cons, h]

/--
C6: cursor independence of `FilePart`s over one archive.  For every
interleaved trace of seek/read/tell operations on two `FilePart`s opened
from the same archive, each part ends in exactly the state produced by its
own sub-trace alone — in particular a trace that only touches one part
leaves the other's cursor unchanged — and the bytes any subsequent `read`
on the other part returns are those it would return had the first part
never been touched.
-/
theorem filePart_cursor_independence (archive : List Nat) (a b : FilePart)
    (ops : List (Bool × FpOp)) :
    (ops.foldl (twoPartsApply archive) (a, b)).1 =
      applyOps archive a (opsFor false ops) ∧
    (ops.foldl (twoPartsApply archive) (a, b)).2 =
      applyOps archive b (opsFor true ops) ∧
    ∀ n, ((ops.foldl (twoPartsApply archive) (a, b)).2.read archive n).1 =
      ((applyOps archive b (opsFor true ops)).read archive n).1 := by
  have main : ∀ (ops : List (Bool × FpOp)) (a b : FilePart),
      (ops.foldl (twoPartsApply archive) (a, b)).1 =
        applyOps archive a (opsFor false ops) ∧
      (ops.foldl (twoPartsApply archive) (a, b)).2 =
        applyOps archive b (opsFor true ops) := by
    intro ops
    induction ops with
    | nil => intro a b; exact ⟨rfl, rfl⟩
    | cons hd t ih =>
      intro a b
      obtain ⟨side, op⟩ := hd
      cases side with
      | false =>
        have h1 := ih (applyOp archive a op) b
        refine ⟨?_, ?_⟩
        · rw [List.foldl_cons]
          rw [show twoPartsApply archive (a, b) (false, op) =
            (applyOp archive a op, b) from rfl]
          rw [h1.1, opsFor_cons false false op t, if_pos rfl]
          rfl
        · rw [List.foldl_cons]
          rw [show twoPartsApply archive (a, b) (false, op) =
            (applyOp archive a op, b) from rfl]
          rw [h1.2, opsFor_cons true false op t,
            if_neg (by norm_num)]
      | true =>
        have h1 := ih a (applyOp archive b op)
        refine ⟨?_, ?_⟩
        · rw [List.foldl_cons]
          rw [show twoPartsApply archive (a, b) (true, op) =
            (a, applyOp archive b op) from rfl]
          rw [h1.1, opsFor_cons false true op t,
            if_neg (by norm_num)]
        · rw [List.foldl_cons]
          rw [show twoPartsApply archive (a, b) (true, op) =
            (a, applyOp archive b op) from rfl]
          rw [h1.2, opsFor_cons true true op t, if_pos rfl]
          rfl
  refine ⟨(main ops a b).1, (main ops a b).2, ?_⟩
  intro n
  rw [(main ops a b).2]

/-! ### The epochs document (`src/mffpy/xml_files.py`, classes `Epochs` and
`Categories`) -/

/-- Value returned by `Epochs.__getitem__`: a single `Epoch` or a list. -/
inductive GetItemResult where
  | one : Epoch → GetItemResult
  | many : List Epoch → GetItemResult
  deriving DecidableEq, Repr

/-- Key passed to `Epochs.__getitem__`: an `int`, a `str`, or a value of any
other type. -/
inductive EpochsKey where
  | int : Int → EpochsKey
  | str : String → EpochsKey
  | other : EpochsKey
  deriving DecidableEq, Repr

/-- Python list indexing `l[n]`: nonnegative indices count from the front,
negative indices from the end, anything else raises `IndexError`. -/
def pyListGet (l : List Epoch) (n : Int) : Option Epoch :=
  if 0 ≤ n then l[n.toNat]?
  else if 0 ≤ (l.length : Int) + n then l[((l.length : Int) + n).toNat]?
  else none

/-- `Epochs.__getitem__`: an `int` indexes the epoch list; a `str` returns
the one epoch of that name when exactly one matches
(`matched[0] if len(matched) == 1 else matched`) and the list of matches
otherwise; any other key raises `ValueError`. -/
def epochsGetItem (epochs : List Epoch) : EpochsKey → Option GetItemResult
  | .int n =>
    match pyListGet epochs n with
    | some e => some (.one e)
    | none => none
  | .str s =>
    match epochs.filter fun e => e.name == s with
    | [e] => some (.one e)
    | ms => some (.many ms)
  | .other => none

/-- One entry `{'category': name, 't0': starttime}` built by
`Categories.sort_categories_by_starttime`. -/
structure CatEntry where
  category : String
  t0 : Int
  deriving DecidableEq, Repr

/-- `Categories.sort_categories_by_starttime`: flatten every category's
segments to `(name, beginTime)` entries and sort them (stably) by `t0`.  A
category is modelled by its name and the `beginTime`s of its segments, the
only fields the function reads. -/
def sortCategoriesByStarttime (categories : List (String × List Int)) :
    List CatEntry :=
  let entries := categories.flatMap
    fun nb => nb.2.map fun t0 => CatEntry.mk nb.1 t0
  entries.mergeSort fun a b => decide (a.t0 ≤ b.t0)

/-- `Epochs.associate_categories`: sort the categorized segments by start
time; when their number equals the number of epochs, give every epoch the
paired category name, otherwise print a warning (the returned flag) and
leave the epochs untouched. -/
def associateCategories (epochs : List Epoch)
    (categories : List (String × List Int)) : List Epoch × Bool :=
  let sorted := sortCategoriesByStarttime categories
  if sorted.length = epochs.length then
    ((epochs.zip sorted).map fun p => { p.1 with name := p.2.category },
      false)
  else
    (epochs, true)

theorem map_name_zip (epochs : List Epoch) (sorted : List CatEntry)
    (h : epochs.length = sorted.length) :
    ((epochs.zip sorted).map
      fun p => { p.1 with name := p.2.category } : List Epoch).map Epoch.name
      = sorted.map CatEntry.category := by
  induction epochs generalizing sorted with
  | nil =>
    cases sorted with
    | nil => rfl
    | cons c cs => simp at h
  | cons e es ih =>
    cases sorted with
    | nil => simp at h
    | cons c cs =>
      simp only [List.zip_cons_cons, List.map_cons]
      rw [ih cs (by simpa using h)]

/--
C9: `associate_categories` sorts the categorized segments by `beginTime`
(the sorted list is pairwise ordered on `t0`); when the sorted list has as
many entries as there are epochs, every epoch receives the paired category
name in order; otherwise the epoch list is returned unchanged (names stay
at their default `"epoch"`) together with a warning, and nothing aborts.
-/
theorem associateCategories_spec (epochs : List Epoch)
    (cats : List (String × List Int)) :
    (sortCategoriesByStarttime cats).Pairwise
      (fun a b : CatEntry => a.t0 ≤ b.t0) ∧
    ((sortCategoriesByStarttime cats).length = epochs.length →
      associateCategories epochs cats =
        ((epochs.zip (sortCategoriesByStarttime cats)).map
          fun p => { p.1 with name := p.2.category }, false) ∧
      (associateCategories epochs cats).1.map Epoch.name =
        (sortCategoriesByStarttime cats).map CatEntry.category) ∧
    ((sortCategoriesByStarttime cats).length ≠ epochs.length →
      associateCategories epochs cats = (epochs, true)) := by
  refine ⟨?_, ?_, ?_⟩
  · have h := @List.sorted_mergeSort CatEntry
      (fun a b : CatEntry => decide (a.t0 ≤ b.t0))
      (fun a b c hab hbc => by
        simp only [decide_eq_true_eq] at *
        omega)
      (fun a b => by
        simp only [Bool.or_eq_true, decide_eq_true_eq]
        omega)
      (cats.flatMap fun nb => nb.2.map fun t0 => CatEntry.mk nb.1 t0)
    unfold sortCategoriesByStarttime
    exact h.imp (by simp)
  · intro hlen
    have heq : associateCategories epochs cats =
        ((epochs.zip (sortCategoriesByStarttime cats)).map
          fun p => { p.1 with name := p.2.category }, false) := by
      unfold associateCategories
      rw [if_pos hlen]
    refine ⟨heq, ?_⟩
    rw [heq]
    exact map_name_zip epochs (sortCategoriesByStarttime cats) hlen.symm
  · intro hlen
    unfold associateCategories
    rw [if_neg hlen]

/-- C9 witness: two epochs and two categorized segments given out of time
order; the segments are sorted by start time and the epochs get the names
in that order. -/
theorem associateCategories_spec_witness :
    (sortCategoriesByStarttime [("b", [500]), ("a", [100])]).length =
      ([⟨0, 1, 1, 1, "epoch"⟩, ⟨2, 3, 2, 2, "epoch"⟩] :
        List Epoch).length ∧
    (associateCategories [⟨0, 1, 1, 1, "epoch"⟩, ⟨2, 3, 2, 2, "epoch"⟩]
      [("b", [500]), ("a", [100])]).1.map Epoch.name = ["a", "b"] := by
  have hs : sortCategoriesByStarttime [("b", [500]), ("a", [100])] =
      [⟨"a", 100⟩, ⟨"b", 500⟩] := by
    unfold sortCategoriesByStarttime
    simp [List.mergeSort]
  have h := (associateCategories_spec
    [⟨0, 1, 1, 1, "epoch"⟩, ⟨2, 3, 2, 2, "epoch"⟩]
    [("b", [500]), ("a", [100])]).2.1 (by rw [hs]; rfl)
  refine ⟨by rw [hs]; rfl, ?_⟩
  rw [h.2, hs]
  rfl

/--
C10: `Epochs.__getitem__` — an integer key `n` (within range) returns the
epoch at position `n`; a string key returns the single epoch of that name
when exactly one matches and otherwise the (possibly empty) list of all
matching epochs; a key of any other type raises `ValueError`.
-/
theorem epochsGetItem_spec (epochs : List Epoch) :
    (∀ (n : Nat) (h : n < epochs.length),
      epochsGetItem epochs (.int n) = some (.one (epochs.get ⟨n, h⟩))) ∧
    (∀ s e, epochs.filter (fun x => x.name == s) = [e] →
      epochsGetItem epochs (.str s) = some (.one e)) ∧
    (∀ s, (epochs.filter fun x => x.name == s).length ≠ 1 →
      epochsGetItem epochs (.str s) =
        some (.many (epochs.filter fun x => x.name == s))) ∧
    epochsGetItem epochs .other = none := by
  refine ⟨?_, ?_, ?_, rfl⟩
  · intro n h
    simp only [epochsGetItem, pyListGet]
    rw [if_pos (by omega : (0 : Int) ≤ (n : Int))]
    have h1 : ((n : Int)).toNat = n := by omega
    rw [h1, List.getElem?_eq_getElem h]
    rfl
  · intro s e hf
    simp only [epochsGetItem]
    rw [hf]
  · intro s hne
    simp only [epochsGetItem]
    cases hf : epochs.filter fun x => x.name == s with
    | nil => rfl
    | cons a t =>
      cases t with
      | nil =>
        rw [hf] at hne
        simp at hne
      | cons b u => rfl

/-! ### Buffer-shape robustness of block decoding (`frombuffer`) -/

/-- Modelled from the spec: the helper `frombuffer(buffer, shape)` of
`raw_bin_files.py` is missing from the copy of that module under `src/`
(only its tests in `tests/test_raw_bin_files.py` remain).  Per the spec, a
payload of exactly `4·C·N` bytes is reshaped to `(C, N)`; a payload 1..4
bytes longer is silently truncated to `4·C·N` bytes under a `BytesWarning`
(the returned flag); any other shape error — including an invalid shape —
fails hard.  The result keeps the raw bytes; the f32 words are opaque
4-byte groups. -/
def frombuffer (buffer : List Nat) (C N : Int) :
    Except String (List Nat × Bool) :=
  if C ≤ 0 ∨ N ≤ 0 then .error "ValueError: invalid shape"
  else
    let expected := (4 * C * N).toNat
    if buffer.length = expected then .ok (buffer, false)
    else if expected + 1 ≤ buffer.length ∧ buffer.length ≤ expected + 4 then
      .ok (buffer.take expected, true)
    else .error "ValueError: cannot reshape"

/--
C4: decoding block bytes tolerates a payload 1 to 4 bytes longer than
`4·C·N` by truncating the excess under a warning, accepts an exact payload
silently, and fails hard on every other length.
-/
theorem frombuffer_shape_rule (C N : Int) (buffer : List Nat)
    (hc : 0 < C) (hn : 0 < N) :
    (∀ k : Nat, 1 ≤ k → k ≤ 4 →
      buffer.length = (4 * C * N).toNat + k →
      frombuffer buffer C N = .ok (buffer.take (4 * C * N).toNat, true)) ∧
    (buffer.length = (4 * C * N).toNat →
      frombuffer buffer C N = .ok (buffer, false)) ∧
    (buffer.length ≠ (4 * C * N).toNat →
      (∀ k : Nat, 1 ≤ k → k ≤ 4 →
        buffer.length ≠ (4 * C * N).toNat + k) →
      frombuffer buffer C N = .error "ValueError: cannot reshape") := by
  refine ⟨?_, ?_, ?_⟩
  · intro k hk1 hk4 hlen
    unfold frombuffer
    rw [if_neg (by omega)]
    rw [if_neg (by omega)]
    rw [if_pos (by omega)]
  · intro hlen
    unfold frombuffer
    rw [if_neg (by omega)]
    rw [if_pos hlen]
  · intro hne hnok
    unfold frombuffer
    rw [if_neg (by omega)]
    rw [if_neg hne]
    rw [if_neg]
    intro hcon
    have h1 := hnok (buffer.length - (4 * C * N).toNat) (by omega) (by omega)
    omega

/-- C4 witness: shape `(2, 3)` (24 expected bytes): 26 bytes are truncated
with a warning, 24 bytes pass silently, 29 bytes fail. -/
theorem frombuffer_shape_rule_witness :
    frombuffer (List.replicate 26 0) 2 3 =
      .ok (List.replicate 24 0, true) ∧
    frombuffer (List.replicate 24 0) 2 3 =
      .ok (List.replicate 24 0, false) ∧
    frombuffer (List.replicate 29 0) 2 3 =
      .error "ValueError: cannot reshape" := by
  have h := frombuffer_shape_rule 2 3 (List.replicate 26 0)
    (by norm_num) (by norm_num)
  have h24 := frombuffer_shape_rule 2 3 (List.replicate 24 0)
    (by norm_num) (by norm_num)
  have h29 := frombuffer_shape_rule 2 3 (List.replicate 29 0)
    (by norm_num) (by norm_num)
  refine ⟨?_, ?_, ?_⟩
  · exact (h.1 2 (by norm_num) (by norm_num) (by rfl)).trans (by rfl)
  · exact h24.2.1 (by rfl)
  · exact h29.2.2 (by decide) (by decide)

/-! ### `read_raw_samples` (`src/mffpy/raw_bin_files.py`)

The sample matrix is modelled column-wise: each block is a list of columns
(one abstract column per sample, every channel sliced identically by
`block_data[:, a:b]`), and the blocks are those selected by `block_slice`
(the source shifts the block indices by `block_slice.start` and reads the
same blocks).  Exact rational arithmetic stands in for the float
computations; every number in the counterexample below is exactly
representable in binary floating point, where float and rational
arithmetic agree. -/

/-- The floor of a rational, computably (`⌊q⌋`; see `ratFloor_eq`). -/
def ratFloor (q : ℚ) : Int :=
  q.num.fdiv q.den

theorem ratFloor_eq (q : ℚ) : ratFloor q = ⌊q⌋ := by
  rw [ratFloor, Int.fdiv_eq_ediv _ (Int.natCast_nonneg q.den),
    ← Rat.floor_intCast_div_natCast q.num q.den, Rat.num_div_den]

/-- `numpy.round` (like Python's `round`): round to the nearest integer,
ties to the nearest even integer. -/
def npRound (q : ℚ) : Int :=
  if q - ratFloor q < 1 / 2 then ratFloor q
  else if 1 / 2 < q - ratFloor q then ratFloor q + 1
  else if Even (ratFloor q) then ratFloor q else ratFloor q + 1

/-- The rounding rule the spec asserts: round to the nearest integer, ties
away from zero. -/
def roundHalfAwayFromZero (q : ℚ) : Int :=
  if 0 ≤ q then ratFloor (q + 1 / 2) else -ratFloor (-(q - 1 / 2))

/-- `np.searchsorted(l, v, side='right')` on a sorted list: the number of
entries `≤ v`. -/
def searchSortedRight (l : List Int) (v : Int) : Nat :=
  l.countP fun x => decide (x ≤ v)

/-- `np.searchsorted(l, v, side='left')` on a sorted list: the number of
entries `< v`. -/
def searchSortedLeft (l : List Int) (v : Int) : Nat :=
  l.countP fun x => decide (x < v)

/-- `block_start_idx[block_slice] - block_start_idx[block_slice.start]`:
the cumulative sample counts `np.cumsum([0] + num_samples)` restricted to
the slice, relative to its first entry — the running starts of the sliced
blocks, without the final total. -/
def blockStartIdx (blocks : List (List α)) : List Int :=
  ((blocks.map fun bl => (bl.length : Int)).scanl (· + ·) 0).dropLast

/-- `RawBinFile.read_raw_samples(t0, dt, block_slice)` over the sliced
blocks.  `a` and `b` are the `np.round`ed sample boundaries, `A` and `B`
the enclosing block range found by `searchsorted`, and the read block
columns are trimmed by `block_data[:, a':b']`.  When the enclosed block
range is empty (`B ≤ A`), `_read_blocks` evaluates `np.concatenate([])`,
which raises `ValueError`; that error path is `none`.  The model covers
the nonnegative offsets (`0 ≤ a`): the Reader façade asserts `t0 ≥ 0`,
and for a negative `a` NumPy's negative indexing of `bsi[A]` has no
counterpart here. -/
def readRawSamples (blocks : List (List α)) (sr : ℚ) (t0 : ℚ)
    (dt : Option ℚ) : Option (List α × ℚ) :=
  let bsi := blockStartIdx blocks
  let a : Int := npRound (t0 * sr)
  let b : Option Int := dt.map fun d => npRound ((t0 + d) * sr)
  let tStart : ℚ := (a : ℚ) / sr
  let A : Nat := searchSortedRight bsi a - 1
  let B : Nat :=
    match b with
    | some bv => searchSortedLeft bsi bv
    | none => bsi.length
  if B ≤ A then none
  else
    let aRel : Int := a - bsi.getD A 0
    let bRel : Option Int := b.map fun bv => bv - bsi.getD A 0
    let blockData := ((blocks.drop A).take (B - A)).flatten
    let sliced :=
      match bRel with
      | some bv => (blockData.take bv.toNat).drop aRel.toNat
      | none => blockData.drop aRel.toNat
    some (sliced, tStart)

/--
C2 (counterexample): the claim says the boundaries are rounded
half-away-from-zero, but `np.round` rounds half to even.  At `t0 = 1/4`,
`sr = 2` (all values binary-exact), `t0 · sr = 1/2`: the code computes
`a = 0` and returns start time `0`, while the claim's rounding gives
`a = 1` and start time `1/2`.
-/
theorem readRawSamples_rounding_cex :
    npRound ((1 / 4 : ℚ) * 2) = 0 ∧
    roundHalfAwayFromZero ((1 / 4 : ℚ) * 2) = 1 ∧
    readRawSamples [[(10 : Int), 20]] 2 (1 / 4) (some (1 / 2)) =
      some ([10, 20], 0) ∧
    (roundHalfAwayFromZero ((1 / 4 : ℚ) * 2) : ℚ) / 2 = 1 / 2 ∧
    (0 : ℚ) ≠ 1 / 2 := by
  have hq : ((1 : ℚ) / 4) * 2 = 1 / 2 := by norm_num
  have hfl : ratFloor ((1 : ℚ) / 2) = 0 := by
    rw [ratFloor_eq]
    norm_num
  have hfl32 : ratFloor ((3 : ℚ) / 2) = 1 := by
    rw [ratFloor_eq]
    norm_num
  have h0 : npRound ((1 / 4 : ℚ) * 2) = 0 := by
    unfold npRound
    rw [hq, hfl]
    norm_num
  have hb : npRound ((1 / 4 + 1 / 2 : ℚ) * 2) = 2 := by
    unfold npRound
    rw [show ((1 / 4 + 1 / 2 : ℚ) * 2) = 3 / 2 by norm_num, hfl32]
    norm_num
  have h1 : roundHalfAwayFromZero ((1 / 4 : ℚ) * 2) = 1 := by
    unfold roundHalfAwayFromZero
    rw [hq, if_pos (by norm_num : (0 : ℚ) ≤ 1 / 2)]
    rw [show (1 : ℚ) / 2 + 1 / 2 = 1 by norm_num, ratFloor_eq]
    norm_num
  refine ⟨h0, h1, ?_, ?_, by norm_num⟩
  · simp only [readRawSamples, Option.map_some']
    rw [h0, hb]
    have hcond : ¬ (searchSortedLeft
        (blockStartIdx [[(10 : Int), 20]]) 2 ≤
        searchSortedRight (blockStartIdx [[(10 : Int), 20]]) 0 - 1) := by
      decide
    rw [if_neg hcond]
    simp only [Option.some.injEq, Prod.mk.injEq]
    exact ⟨by decide, by norm_num⟩
  · rw [h1]
    norm_num

/-- Sum of the lengths of the first `j` blocks — the sample index at which
block `j` starts. -/
def pfxLen (blocks : List (List α)) (j : Nat) : Nat :=
  ((blocks.take j).map List.length).sum

theorem flatten_take (l : List (List α)) (m : Nat) :
    (l.take m).flatten = l.flatten.take (pfxLen l m) := by
  induction l generalizing m with
  | nil => simp [pfxLen]
  | cons x t ih =>
    cases m with
    | zero => simp [pfxLen]
    | succ m =>
      simp only [List.take_succ_cons, List.flatten_cons, pfxLen,
        List.map_cons, List.sum_cons]
      rw [List.take_append, ih]
      rfl

theorem flatten_drop (l : List (List α)) (m : Nat) :
    (l.drop m).flatten = l.flatten.drop (pfxLen l m) := by
  induction l generalizing m with
  | nil => simp [pfxLen]
  | cons x t ih =>
    cases m with
    | zero => simp [pfxLen]
    | succ m =>
      simp only [List.drop_succ_cons, List.flatten_cons, pfxLen,
        List.take_succ_cons, List.map_cons, List.sum_cons]
      rw [List.drop_append, ih]
      rfl

theorem pfxLen_add (l : List (List α)) (i k : Nat) :
    pfxLen l (i + k) = pfxLen l i + pfxLen (l.drop i) k := by
  unfold pfxLen
  rw [List.take_add, List.map_append, List.sum_append]

theorem pfxLen_mono (l : List (List α)) (i j : Nat) (h : i ≤ j) :
    pfxLen l i ≤ pfxLen l j := by
  have h1 : j = i + (j - i) := by omega
  rw [h1, pfxLen_add]
  omega

theorem pfxLen_length (l : List (List α)) :
    pfxLen l l.length = l.flatten.length := by
  unfold pfxLen
  rw [List.take_length, List.length_flatten]

theorem pfxLen_zero (l : List (List α)) : pfxLen l 0 = 0 := rfl

theorem pfxLen_succ (x : List α) (t : List (List α)) (j : Nat) :
    pfxLen (x :: t) (j + 1) = x.length + pfxLen t j := by
  simp [pfxLen, List.take_succ_cons]

theorem scanl_add_shift (ns : List Int) (c : Int) :
    ns.scanl (· + ·) c = (ns.scanl (· + ·) 0).map fun y => c + y := by
  induction ns generalizing c with
  | nil => simp [List.scanl_nil]
  | cons x t ih =>
    rw [List.scanl_cons, List.scanl_cons, ih (c + x), ih (0 + x)]
    simp only [List.singleton_append, List.map_cons, List.map_map]
    have h1 : c = c + 0 := by ring
    have h2 : ((fun y => c + y) ∘ fun y => 0 + x + y) =
        fun y => c + x + y := by
      funext y
      simp only [Function.comp_apply]
      ring
    rw [h2]
    nth_rewrite 1 [h1]
    rfl

theorem blockStartIdx_eq (blocks : List (List α)) :
    blockStartIdx blocks =
      (List.range blocks.length).map fun j => (pfxLen blocks j : Int) := by
  induction blocks with
  | nil => rfl
  | cons x t ih =>
    unfold blockStartIdx
    simp only [List.map_cons, List.scanl_cons, List.singleton_append]
    rw [scanl_add_shift]
    have hne : (((t.map fun bl => (bl.length : Int)).scanl (· + ·) 0).map
        fun y => 0 + (x.length : Int) + y) ≠ [] := by
      cases t <;> simp [List.scanl_cons, List.scanl_nil]
    rw [List.dropLast_cons_of_ne_nil hne, ← List.map_dropLast]
    have ht : ((t.map fun bl => (bl.length : Int)).scanl (· + ·) 0).dropLast
        = blockStartIdx t := rfl
    rw [ht, ih, List.length_cons, List.range_succ_eq_map]
    simp only [List.map_cons, List.map_map]
    have h0 : (pfxLen (x :: t) 0 : Int) = 0 := by
      rw [pfxLen_zero]
      rfl
    rw [h0]
    have hf : ((fun j => (pfxLen (x :: t) j : Int)) ∘ Nat.succ) =
        (fun y => 0 + (x.length : Int) + y) ∘
          fun j => (pfxLen t j : Int) := by
      funext j
      simp only [Function.comp_apply, Nat.succ_eq_add_one, pfxLen_succ]
      push_cast
      ring
    rw [hf]

/-- Over a list sorted in nondecreasing order, a downward-closed predicate
holds exactly on the first `countP` positions. -/
theorem countP_sorted_downward (l : List Int) (p : Int → Bool)
    (hp : ∀ x y : Int, x ≤ y → p y = true → p x = true)
    (hs : l.Pairwise (· ≤ ·)) :
    l.countP p ≤ l.length ∧
    (∀ (j : Nat) (h : j < l.length), j < l.countP p →
      p (l.get ⟨j, h⟩) = true) ∧
    (∀ (j : Nat) (h : j < l.length), l.countP p ≤ j →
      p (l.get ⟨j, h⟩) = false) := by
  induction l with
  | nil =>
    refine ⟨by simp, ?_, ?_⟩ <;> intro j h <;> simp at h
  | cons x t ih =>
    rw [List.pairwise_cons] at hs
    obtain ⟨iht1, iht2, iht3⟩ := ih hs.2
    by_cases hx : p x = true
    · rw [List.countP_cons_of_pos _ _ hx]
      refine ⟨by simpa using iht1, ?_, ?_⟩
      · intro j h hj
        cases j with
        | zero => exact hx
        | succ j =>
          exact iht2 j (by simpa using h) (by omega)
      · intro j h hj
        cases j with
        | zero => omega
        | succ j =>
          exact iht3 j (by simpa using h) (by omega)
    · have hxf : p x = false := by
        revert hx
        cases p x <;> simp
      have hall : ∀ y ∈ t, p y = false := by
        intro y hy
        by_contra hc
        exact hx (hp x y (hs.1 y hy) (by revert hc; cases p y <;> simp))
      have hz : t.countP p = 0 := by
        rw [List.countP_eq_zero]
        intro y hy
        rw [hall y hy]
        simp
      rw [List.countP_cons_of_neg _ _ hx, hz]
      refine ⟨by simp, ?_, ?_⟩
      · intro j h hj
        omega
      · intro j h _
        cases j with
        | zero => exact hxf
        | succ j =>
          exact hall (t.get ⟨j, by simpa using h⟩) (t.get_mem _ _)

theorem take_drop_self (l : List α) (n : Nat) : (l.take n).drop n = [] :=
  List.drop_eq_nil_of_le (List.length_take_le n l)

/-- Reading blocks `[A, B)` and trimming columns `[aN - pfx A, bN - pfx A)`
yields exactly the flat samples `[aN, bN)` when `A` and `B` enclose the
window. -/
theorem slice_blocks_eq (blocks : List (List α)) (A B aN bN : Nat)
    (hAB : A ≤ B) (hpAa : pfxLen blocks A ≤ aN) (hab : aN ≤ bN)
    (hbpB : bN ≤ pfxLen blocks B) :
    ((((blocks.drop A).take (B - A)).flatten.take
        (bN - pfxLen blocks A)).drop (aN - pfxLen blocks A))
      = (blocks.flatten.take bN).drop aN := by
  have h1 : ((blocks.drop A).take (B - A)).flatten =
      (blocks.flatten.drop (pfxLen blocks A)).take
        (pfxLen blocks B - pfxLen blocks A) := by
    rw [flatten_take, flatten_drop]
    have h2 : pfxLen blocks B =
        pfxLen blocks A + pfxLen (blocks.drop A) (B - A) := by
      rw [← pfxLen_add]
      congr 1
      omega
    congr 1
    omega
  rw [h1, List.take_take]
  have hmin : (bN - pfxLen blocks A) ⊓
      (pfxLen blocks B - pfxLen blocks A) = bN - pfxLen blocks A := by
    rw [Nat.min_def]
    split <;> omega
  rw [hmin, List.drop_take, List.drop_drop, List.drop_take]
  congr 1
  · omega
  · congr 1
    omega

/-- The block indices `A` and `B` found by `searchsorted` on the block
start index: `A` is a valid block, the right search finds at least the
leading `0`, `A`'s start is at most `a`, `A < B` when the window is
nonempty, and block `B` starts no earlier than `b`. -/
theorem searchsorted_facts (blocks : List (List α)) (a b : Int)
    (hne : blocks ≠ []) (ha : 0 ≤ a)
    (hb : b ≤ (blocks.flatten.length : Int)) :
    searchSortedRight (blockStartIdx blocks) a - 1 < blocks.length ∧
    searchSortedLeft (blockStartIdx blocks) b ≤ blocks.length ∧
    1 ≤ searchSortedRight (blockStartIdx blocks) a ∧
    (blockStartIdx blocks).getD
        (searchSortedRight (blockStartIdx blocks) a - 1) 0 =
      (pfxLen blocks (searchSortedRight (blockStartIdx blocks) a - 1) :
        Int) ∧
    (pfxLen blocks (searchSortedRight (blockStartIdx blocks) a - 1) : Int)
      ≤ a ∧
    (a < b → searchSortedRight (blockStartIdx blocks) a - 1 <
      searchSortedLeft (blockStartIdx blocks) b) ∧
    b ≤ (pfxLen blocks (searchSortedLeft (blockStartIdx blocks) b) :
      Int) := by
  have hk : 0 < blocks.length := List.length_pos.mpr hne
  have hlen : (blockStartIdx blocks).length = blocks.length := by
    rw [blockStartIdx_eq]
    simp
  have hget : ∀ (j : Nat) (h : j < (blockStartIdx blocks).length),
      (blockStartIdx blocks).get ⟨j, h⟩ = (pfxLen blocks j : Int) := by
    intro j h
    rw [List.get_of_eq (blockStartIdx_eq blocks)]
    simp only [List.get_eq_getElem, List.getElem_map, List.getElem_range,
      Fin.coe_cast]
  have hsort : (blockStartIdx blocks).Pairwise (· ≤ ·) := by
    rw [blockStartIdx_eq, List.pairwise_map]
    exact (List.pairwise_lt_range blocks.length).imp
      fun hij => by exact_mod_cast pfxLen_mono blocks _ _ (le_of_lt hij)
  obtain ⟨hc1, hc2, hc3⟩ := countP_sorted_downward (blockStartIdx blocks)
    (fun x => decide (x ≤ a))
    (fun x y hxy hy => by
      simp only [decide_eq_true_eq] at *
      omega)
    hsort
  obtain ⟨hd1, hd2, hd3⟩ := countP_sorted_downward (blockStartIdx blocks)
    (fun x => decide (x < b))
    (fun x y hxy hy => by
      simp only [decide_eq_true_eq] at *
      omega)
    hsort
  have hsR : searchSortedRight (blockStartIdx blocks) a =
      List.countP (fun x => decide (x ≤ a)) (blockStartIdx blocks) := rfl
  have hsL : searchSortedLeft (blockStartIdx blocks) b =
      List.countP (fun x => decide (x < b)) (blockStartIdx blocks) := rfl
  have hcnt1 : 1 ≤ searchSortedRight (blockStartIdx blocks) a := by
    by_contra h0
    have h1 := hc3 0 (by omega) (by omega)
    rw [hget 0 (by omega)] at h1
    rw [pfxLen_zero] at h1
    simp only [Nat.cast_zero, decide_eq_false_iff_not, not_le] at h1
    omega
  have hcle : searchSortedRight (blockStartIdx blocks) a ≤ blocks.length :=
    by omega
  have hA : searchSortedRight (blockStartIdx blocks) a - 1 <
      blocks.length := by omega
  have hB : searchSortedLeft (blockStartIdx blocks) b ≤ blocks.length := by
    omega
  have hgetD : (blockStartIdx blocks).getD
      (searchSortedRight (blockStartIdx blocks) a - 1) 0 =
      (pfxLen blocks (searchSortedRight (blockStartIdx blocks) a - 1) :
        Int) := by
    rw [List.getD_eq_getElem?_getD,
      List.getElem?_eq_getElem (by omega :
        searchSortedRight (blockStartIdx blocks) a - 1 <
          (blockStartIdx blocks).length)]
    rw [Option.getD_some]
    have h5 := hget (searchSortedRight (blockStartIdx blocks) a - 1)
      (by omega)
    rw [List.get_eq_getElem] at h5
    exact h5
  have hpAa : (pfxLen blocks
      (searchSortedRight (blockStartIdx blocks) a - 1) : Int) ≤ a := by
    have h1 := hc2 (searchSortedRight (blockStartIdx blocks) a - 1)
      (by omega) (by omega)
    rw [hget _ (by omega)] at h1
    simpa using h1
  have hbpB : b ≤ (pfxLen blocks
      (searchSortedLeft (blockStartIdx blocks) b) : Int) := by
    rcases Nat.lt_or_ge (searchSortedLeft (blockStartIdx blocks) b)
      blocks.length with hlt | hge
    · have h1 := hd3 (searchSortedLeft (blockStartIdx blocks) b)
        (by omega) (by omega)
      rw [hget _ (by omega)] at h1
      simpa using h1
    · have h1 : searchSortedLeft (blockStartIdx blocks) b =
          blocks.length := by omega
      rw [h1, pfxLen_length]
      exact hb
  refine ⟨hA, hB, hcnt1, hgetD, hpAa, ?_, hbpB⟩
  intro hab
  have hmono : List.countP (fun x => decide (x ≤ a))
      (blockStartIdx blocks) ≤
      List.countP (fun x => decide (x < b)) (blockStartIdx blocks) :=
    List.countP_mono_left fun x hx hxa => by
      simp only [decide_eq_true_eq] at *
      omega
  omega

/-- A member of a list is counted by `· ≤ a` but not by `· < a`. -/
theorem countP_le_lt_mem (l : List Int) (a : Int) (hmem : a ∈ l) :
    l.countP (fun x => decide (x < a)) + 1 ≤
      l.countP (fun x => decide (x ≤ a)) := by
  obtain ⟨s, t, rfl⟩ := List.append_of_mem hmem
  have h1 : s.countP (fun x => decide (x < a)) ≤
      s.countP (fun x => decide (x ≤ a)) :=
    List.countP_mono_left fun x hx hxa => by
      simp only [decide_eq_true_eq] at *
      omega
  have h2 : t.countP (fun x => decide (x < a)) ≤
      t.countP (fun x => decide (x ≤ a)) :=
    List.countP_mono_left fun x hx hxa => by
      simp only [decide_eq_true_eq] at *
      omega
  have h3 : (a :: t).countP (fun x => decide (x < a)) =
      t.countP (fun x => decide (x < a)) := by
    rw [List.countP_cons]
    simp
  have h4 : (a :: t).countP (fun x => decide (x ≤ a)) =
      t.countP (fun x => decide (x ≤ a)) + 1 := by
    rw [List.countP_cons]
    simp
  rw [List.countP_append, List.countP_append, h3, h4]
  omega

/--
C2 (amended): in `read_raw_samples` the window boundaries are
`a = np.round(t0·sr)` and `b = np.round((t0+dt)·sr)` where `np.round`
rounds half **to even** (not half away from zero), the returned start time
is `a/sr`, and no interpolation is performed: the returned columns are
exactly the original sample columns with flat indices `[a, b)` of the
sliced blocks (all remaining columns from `a` when `dt` is absent) — with
one error path: a zero-width window (`a = b`) whose boundary lands on a
block start makes the enclosed block range empty, so `_read_blocks` raises
`ValueError` from `np.concatenate([])` instead of returning a zero-column
array.
-/
theorem readRawSamples_spec (blocks : List (List α)) (sr t0 : ℚ)
    (hne : blocks ≠ [])
    (ha : 0 ≤ npRound (t0 * sr)) :
    (∀ dt : ℚ, npRound (t0 * sr) ≤ npRound ((t0 + dt) * sr) →
      npRound ((t0 + dt) * sr) ≤ (blocks.flatten.length : Int) →
      (npRound ((t0 + dt) * sr) = npRound (t0 * sr) →
        npRound (t0 * sr) ∉ blockStartIdx blocks) →
      readRawSamples blocks sr t0 (some dt) =
        some ((blocks.flatten.take (npRound ((t0 + dt) * sr)).toNat).drop
          (npRound (t0 * sr)).toNat,
         (npRound (t0 * sr) : ℚ) / sr)) ∧
    (∀ dt : ℚ, npRound ((t0 + dt) * sr) = npRound (t0 * sr) →
      npRound (t0 * sr) ∈ blockStartIdx blocks →
      readRawSamples blocks sr t0 (some dt) = none) ∧
    (npRound (t0 * sr) ≤ (blocks.flatten.length : Int) →
      readRawSamples blocks sr t0 none =
        some (blocks.flatten.drop (npRound (t0 * sr)).toNat,
         (npRound (t0 * sr) : ℚ) / sr)) := by
  refine ⟨?_, ?_, ?_⟩
  · intro dt hab hb hzw
    obtain ⟨hA, hB, hone, hgetD, hpAa, hABf, hbpB⟩ := searchsorted_facts
      blocks (npRound (t0 * sr)) (npRound ((t0 + dt) * sr)) hne ha hb
    have hsR : searchSortedRight (blockStartIdx blocks)
        (npRound (t0 * sr)) =
        List.countP (fun x => decide (x ≤ npRound (t0 * sr)))
          (blockStartIdx blocks) := rfl
    have hsL : searchSortedLeft (blockStartIdx blocks)
        (npRound ((t0 + dt) * sr)) =
        List.countP (fun x => decide (x < npRound ((t0 + dt) * sr)))
          (blockStartIdx blocks) := rfl
    have hlt : searchSortedRight (blockStartIdx blocks)
        (npRound (t0 * sr)) - 1 <
        searchSortedLeft (blockStartIdx blocks)
          (npRound ((t0 + dt) * sr)) := by
      rcases eq_or_lt_of_le hab with heq | hlt
      · have hnm := hzw heq.symm
        have hcongr : List.countP
            (fun x => decide (x < npRound ((t0 + dt) * sr)))
            (blockStartIdx blocks) =
            List.countP (fun x => decide (x ≤ npRound (t0 * sr)))
              (blockStartIdx blocks) := by
          apply List.countP_congr
          intro x hx
          have hxa : x ≠ npRound (t0 * sr) := by
            intro hcx
            exact hnm (hcx ▸ hx)
          rw [← heq]
          simp only [decide_eq_true_eq]
          constructor
          · intro h'
            omega
          · intro h'
            omega
        omega
      · exact hABf hlt
    have hcond : ¬ (searchSortedLeft (blockStartIdx blocks)
        (npRound ((t0 + dt) * sr)) ≤
        searchSortedRight (blockStartIdx blocks)
          (npRound (t0 * sr)) - 1) := by omega
    simp only [readRawSamples, Option.map_some']
    rw [if_neg hcond]
    simp only [Option.some.injEq]
    rw [Prod.mk.injEq]
    refine ⟨?_, rfl⟩
    rw [hgetD]
    rcases eq_or_lt_of_le hab with heq | hlt2
    · rw [← heq]
      have h1 : (npRound (t0 * sr) -
          (pfxLen blocks (searchSortedRight (blockStartIdx blocks)
            (npRound (t0 * sr)) - 1) : Int)).toNat =
          (npRound (t0 * sr)).toNat - pfxLen blocks
            (searchSortedRight (blockStartIdx blocks)
              (npRound (t0 * sr)) - 1) := by omega
      rw [h1, take_drop_self, take_drop_self]
    · have hABle := le_of_lt (hABf hlt2)
      have h1 : (npRound (t0 * sr) -
          (pfxLen blocks (searchSortedRight (blockStartIdx blocks)
            (npRound (t0 * sr)) - 1) : Int)).toNat =
          (npRound (t0 * sr)).toNat - pfxLen blocks
            (searchSortedRight (blockStartIdx blocks)
              (npRound (t0 * sr)) - 1) := by omega
      have h2 : (npRound ((t0 + dt) * sr) -
          (pfxLen blocks (searchSortedRight (blockStartIdx blocks)
            (npRound (t0 * sr)) - 1) : Int)).toNat =
          (npRound ((t0 + dt) * sr)).toNat - pfxLen blocks
            (searchSortedRight (blockStartIdx blocks)
              (npRound (t0 * sr)) - 1) := by omega
      rw [h1, h2]
      exact slice_blocks_eq blocks _ _ _ _ hABle (by omega) (by omega)
        (by omega)
  · intro dt hba hmem
    have hsR : searchSortedRight (blockStartIdx blocks)
        (npRound (t0 * sr)) =
        List.countP (fun x => decide (x ≤ npRound (t0 * sr)))
          (blockStartIdx blocks) := rfl
    have hsL2 : searchSortedLeft (blockStartIdx blocks)
        (npRound (t0 * sr)) =
        List.countP (fun x => decide (x < npRound (t0 * sr)))
          (blockStartIdx blocks) := rfl
    have hc := countP_le_lt_mem (blockStartIdx blocks)
      (npRound (t0 * sr)) hmem
    simp only [readRawSamples, Option.map_some']
    rw [hba]
    rw [if_pos (by omega : searchSortedLeft (blockStartIdx blocks)
      (npRound (t0 * sr)) ≤ searchSortedRight (blockStartIdx blocks)
        (npRound (t0 * sr)) - 1)]
  · intro hb
    obtain ⟨hA, hB, hone, hgetD, hpAa, hABf, hbpB⟩ := searchsorted_facts
      blocks (npRound (t0 * sr)) (blocks.flatten.length : Int) hne ha
      le_rfl
    have hlen2 : (blockStartIdx blocks).length = blocks.length := by
      rw [blockStartIdx_eq]
      simp
    have hcond : ¬ ((blockStartIdx blocks).length ≤
        searchSortedRight (blockStartIdx blocks)
          (npRound (t0 * sr)) - 1) := by
      rw [hlen2]
      omega
    simp only [readRawSamples, Option.map_none']
    rw [if_neg hcond]
    simp only [Option.some.injEq]
    rw [Prod.mk.injEq]
    refine ⟨?_, rfl⟩
    rw [hgetD]
    have h4 : ((blocks.drop (searchSortedRight (blockStartIdx blocks)
        (npRound (t0 * sr)) - 1)).take ((blockStartIdx blocks).length -
          (searchSortedRight (blockStartIdx blocks)
            (npRound (t0 * sr)) - 1))) =
        blocks.drop (searchSortedRight (blockStartIdx blocks)
          (npRound (t0 * sr)) - 1) := by
      apply List.take_of_length_le
      rw [List.length_drop, hlen2]
    rw [h4, flatten_drop]
    rw [List.drop_drop]
    congr 1
    omega

/-- C2 witness: three blocks of two samples each at 10 Hz.  The window
`t0 = 0.1 s`, `dt = 0.3 s` selects flat samples `[1, 4)` across the block
boundaries with `t_start = 1/10`; the zero-width window `t0 = 0.2 s`,
`dt = 0` lands on the start of the second block and the read fails. -/
theorem readRawSamples_spec_witness :
    readRawSamples [[(10 : Int), 11], [12, 13], [14, 15]] 10 (1 / 10)
      (some (3 / 10)) = some ([11, 12, 13], 1 / 10) ∧
    readRawSamples [[(10 : Int), 11], [12, 13], [14, 15]] 10 (1 / 5)
      (some 0) = none := by
  have hfl1 : ratFloor ((1 : ℚ)) = 1 := by
    rw [ratFloor_eq]
    norm_num
  have hfl4 : ratFloor ((4 : ℚ)) = 4 := by
    rw [ratFloor_eq]
    norm_num
  have hfl2 : ratFloor ((2 : ℚ)) = 2 := by
    rw [ratFloor_eq]
    norm_num
  have h1 : npRound ((1 / 10 : ℚ) * 10) = 1 := by
    unfold npRound
    rw [show ((1 / 10 : ℚ) * 10) = 1 by norm_num, hfl1]
    norm_num
  have h2 : npRound ((1 / 10 + 3 / 10 : ℚ) * 10) = 4 := by
    unfold npRound
    rw [show ((1 / 10 + 3 / 10 : ℚ) * 10) = 4 by norm_num, hfl4]
    norm_num
  have h3 : npRound ((1 / 5 : ℚ) * 10) = 2 := by
    unfold npRound
    rw [show ((1 / 5 : ℚ) * 10) = 2 by norm_num, hfl2]
    norm_num
  have h4 : npRound ((1 / 5 + 0 : ℚ) * 10) =
      npRound ((1 / 5 : ℚ) * 10) := by
    rw [show ((1 / 5 + 0 : ℚ) * 10) = (1 / 5 : ℚ) * 10 by norm_num]
  constructor
  · have h := (readRawSamples_spec [[(10 : Int), 11], [12, 13], [14, 15]]
      10 (1 / 10) (by simp) (by rw [h1]; norm_num)).1 (3 / 10)
      (by rw [h1, h2]; norm_num) (by rw [h2]; norm_num)
      (by rw [h1, h2]; intro hq; exact absurd hq (by decide))
    rw [h, h1, h2]
    simp only [Option.some.injEq, Prod.mk.injEq]
    exact ⟨by decide, by norm_num⟩
  · exact (readRawSamples_spec [[(10 : Int), 11], [12, 13], [14, 15]]
      10 (1 / 5) (by simp) (by rw [h3]; norm_num)).2.1 0 h4
      (by rw [h3]; decide)

/-! ### The block catalog walk (`src/mffpy/raw_bin_files.py`,
`RawBinFile.signal_blocks` and `RawBinFile._read_header_block`) -/

/-- The `HeaderBlock` named tuple of `raw_bin_files.py` (no optional
trailer: the walk skips whatever follows the rate/depth table using
`header_size`). -/
structure RawHB where
  header_size : Int
  block_size : Int
  num_channels : Int
  num_samples : Int
  sampling_rate : Int
  deriving DecidableEq, Repr

/-- `RawBinFile._read_header_block` (the flag word was already consumed):
read `header_size`, `block_size`, `num_channels`, derive
`num_samples = (block_size // num_channels) // 4`, skip the offset table,
read one rate/depth word and skip the rest of that table, check
`depth == 32`, and skip the remaining
`header_size - 16 - 8·num_channels` header bytes. -/
def readHeaderBlockRaw (s : List Nat) : Option (RawHB × List Nat) :=
  match readI32 s with
  | none => none
  | some (header_size, s1) =>
    match readI32 s1 with
    | none => none
    | some (block_size, s2) =>
      match readI32 s2 with
      | none => none
      | some (num_channels, s3) =>
        if num_channels = 0 then none
        else
          let num_samples := (block_size.fdiv num_channels).fdiv 4
          match skipBytes (4 * num_channels) s3 with
          | none => none
          | some s4 =>
            match readI32 s4 with
            | none => none
            | some (srd, s5) =>
              match skipBytes (4 * num_channels - 4) s5 with
              | none => none
              | some s6 =>
                if (decodeRateDepth srd).2 ≠ 32 then none
                else
                  match skipBytes
                    (header_size - 4 * 4 - 2 * (4 * num_channels)) s6 with
                  | none => none
                  | some s7 =>
                    some (⟨header_size, block_size, num_channels,
                      num_samples, (decodeRateDepth srd).1⟩, s7)

/-- The dictionary `RawBinFile.signal_blocks` returns. -/
structure Catalog where
  data : List (Int × Int)
  n_blocks : Nat
  num_samples : List Int
  num_channels : Int
  header_sizes : List Int
  sampling_rate : Int
  deriving DecidableEq, Repr

/-- The checks after the walk of `signal_blocks`: a header must have been
read, the channel counts and sampling rates of all headers must agree, and
at least one block must exist. -/
def finalizeCatalog (hdr : Option RawHB) (dataAcc : List (Int × Int))
    (nsAcc ncAcc hsAcc srAcc : List Int) : Option Catalog :=
  match hdr with
  | none => none
  | some _ =>
    if nsAcc = [] then none
    else if ¬ (ncAcc.all fun n => n == ncAcc.headD 0) then none
    else if ¬ (srAcc.all fun r => r == srAcc.headD 0) then none
    else some ⟨dataAcc, nsAcc.length, nsAcc, ncAcc.headD 0, hsAcc,
      srAcc.headD 0⟩

/-- The block loop of `RawBinFile.signal_blocks`.  Every iteration reads
the 4-byte flag; on flag ≠ 0 a header is read (appending to the channel and
rate lists), on flag 0 the last header is reused — failing like the
source's `assert hdr is not None` when none was read yet ("MissingHeader").
Either way the data/num_samples/header_sizes rows are appended with the
current position (`self.tell()`) and the payload is skipped.  `fuel` bounds
the iteration count; every iteration consumes at least the 4 flag bytes, so
`stream.length + 1` is always enough. -/
def signalBlocksLoop (fuel : Nat) (s : List Nat) (pos : Int)
    (hdr : Option RawHB) (dataAcc : List (Int × Int))
    (nsAcc ncAcc hsAcc srAcc : List Int) : Option Catalog :=
  match fuel with
  | 0 => none
  | fuel + 1 =>
    if s = [] then finalizeCatalog hdr dataAcc nsAcc ncAcc hsAcc srAcc
    else
      match readI32 s with
      | none => none
      | some (flag, s1) =>
        if flag ≠ 0 then
          match readHeaderBlockRaw s1 with
          | none => none
          | some (h, s2) =>
            match skipBytes h.block_size s2 with
            | none => none
            | some s3 =>
              signalBlocksLoop fuel s3
                (pos + h.header_size + h.block_size) (some h)
                (dataAcc ++ [(pos + h.header_size, h.block_size)])
                (nsAcc ++ [h.num_samples]) (ncAcc ++ [h.num_channels])
                (hsAcc ++ [h.header_size]) (srAcc ++ [h.sampling_rate])
        else
          match hdr with
          | none => none
          | some h =>
            match skipBytes h.block_size s1 with
            | none => none
            | some s3 =>
              signalBlocksLoop fuel s3 (pos + 4 + h.block_size) (some h)
                (dataAcc ++ [(pos + 4, h.block_size)])
                (nsAcc ++ [h.num_samples]) ncAcc
                (hsAcc ++ [h.header_size]) srAcc

/-- `RawBinFile.signal_blocks`: walk the whole stream from position 0. -/
def signalBlocks (stream : List Nat) : Option Catalog :=
  signalBlocksLoop (stream.length + 1) stream 0 none [] [] [] [] []

/-- A header-bearing block as a writer emits it: the three size words, the
channel offset table, the rate/depth table (the first word read, the rest
skipped), and `header_size - 16 - 8·num_channels` further header bytes. -/
def encodeRawHeader (h : RawHB) : List Nat :=
  int32Wrap h.header_size ++ int32Wrap h.block_size ++
    int32Wrap h.num_channels ++
    List.replicate (4 * h.num_channels).toNat 0 ++
    int32Wrap (h.sampling_rate * 2 ^ 8 + 32) ++
    List.replicate (4 * h.num_channels - 4).toNat 0 ++
    List.replicate (h.header_size - 4 * 4 -
      2 * (4 * h.num_channels)).toNat 0

/-- A signal stream as a sequence of blocks: each block optionally starts
with a header (flag word 1) and otherwise reuses the current one (flag
word 0), followed by its sample payload. -/
def encodeBlocks : RawHB → List (Option RawHB × List Nat) → List Nat
  | _, [] => []
  | _, (some h, payload) :: t =>
    int32Wrap 1 ++ encodeRawHeader h ++ payload ++ encodeBlocks h t
  | cur, (none, payload) :: t =>
    int32Wrap 0 ++ payload ++ encodeBlocks cur t

/-- The geometry each block of the stream is governed by: a header block
carries its own header, a reuse block inherits the most recent one; paired
with the byte offset at which each payload starts. -/
def walkRows : Int → RawHB → List (Option RawHB × List Nat) →
    List (Int × RawHB)
  | _, _, [] => []
  | pos, _, (some h, _) :: t =>
    (pos + h.header_size, h) ::
      walkRows (pos + h.header_size + h.block_size) h t
  | pos, cur, (none, _) :: t =>
    (pos + 4, cur) :: walkRows (pos + 4 + cur.block_size) cur t

/-- The headers explicitly present in a block sequence. -/
def headersOf (items : List (Option RawHB × List Nat)) : List RawHB :=
  items.filterMap Prod.fst

/-- The header governing the final block. -/
def lastHeader : RawHB → List (Option RawHB × List Nat) → RawHB
  | cur, [] => cur
  | _, (some h, _) :: t => lastHeader h t
  | cur, (none, _) :: t => lastHeader cur t

/-- A header a writer can emit and the walk can decode: positive channel
count, a header size covering the fixed words and the two tables, sizes
fitting signed 32-bit words, a sampling rate whose packed rate/depth word
fits a signed 32-bit word, and the sample count the decoder derives. -/
def hbWF (h : RawHB) : Prop :=
  1 ≤ h.num_channels ∧ 4 * 4 + 2 * (4 * h.num_channels) ≤ h.header_size ∧
  h.header_size < 2 ^ 31 ∧ 0 ≤ h.block_size ∧ h.block_size < 2 ^ 31 ∧
  0 ≤ h.sampling_rate ∧ h.sampling_rate < 2 ^ 23 ∧
  h.num_samples = (h.block_size.fdiv h.num_channels).fdiv 4

/-- Well-formedness of a block sequence relative to the current header:
every explicit header satisfies `hbWF` and every payload has exactly the
governing header's `block_size` bytes. -/
def itemsWF : RawHB → List (Option RawHB × List Nat) → Prop
  | _, [] => True
  | _, (some h, p) :: t =>
    hbWF h ∧ p.length = h.block_size.toNat ∧ itemsWF h t
  | cur, (none, p) :: t =>
    p.length = cur.block_size.toNat ∧ itemsWF cur t

theorem decodeRateDepth_encode (sr : Int) :
    decodeRateDepth (sr * 2 ^ 8 + 32) = (sr, 32) := by
  unfold decodeRateDepth
  have h1 : (sr * 2 ^ 8 + 32) / 2 ^ 8 = sr := by omega
  have h2 : (sr * 2 ^ 8 + 32) % 2 ^ 8 = 32 := by omega
  rw [h1, h2]

theorem drop_replicate_zero (k : Nat) (rest : List Nat) :
    (List.replicate k (0 : Nat) ++ rest).drop k = rest := by
  simp

theorem readHeaderBlockRaw_encode (h : RawHB) (rest : List Nat)
    (hwf : hbWF h) :
    readHeaderBlockRaw (encodeRawHeader h ++ rest) = some (h, rest) := by
  obtain ⟨h1, h2, h3, h4, h5, h6, h7, h8⟩ := hwf
  have hnc31 : h.num_channels < 2 ^ 28 := by omega
  unfold encodeRawHeader readHeaderBlockRaw
  simp only [List.append_assoc]
  simp only [readI32_int32Wrap h.header_size _ (by omega) (by omega)]
  simp only [readI32_int32Wrap h.block_size _ (by omega) (by omega)]
  simp only [readI32_int32Wrap h.num_channels _ (by omega) (by omega),
    if_neg (by omega : ¬h.num_channels = 0)]
  simp only [skipBytes,
    if_pos (by omega : (0 : Int) ≤ 4 * h.num_channels),
    drop_replicate_zero]
  simp only [readI32_int32Wrap (h.sampling_rate * 2 ^ 8 + 32) _ (by omega)
    (by omega)]
  simp only [if_pos (by omega : (0 : Int) ≤ 4 * h.num_channels - 4),
    drop_replicate_zero, decodeRateDepth_encode,
    if_neg (by norm_num : ¬(32 : Int) ≠ 32),
    if_pos (by omega : (0 : Int) ≤ h.header_size - 4 * 4 -
      2 * (4 * h.num_channels))]
  rw [← h8]

theorem walkRows_length (pos : Int) (cur : RawHB)
    (items : List (Option RawHB × List Nat)) :
    (walkRows pos cur items).length = items.length := by
  induction items generalizing pos cur with
  | nil => rfl
  | cons x t ih =>
    obtain ⟨oh, p⟩ := x
    cases oh <;> simp [walkRows, ih]

/-- One unfolding step of the block loop. -/
theorem signalBlocksLoop_succ (fuel : Nat) (s : List Nat) (pos : Int)
    (hdr : Option RawHB) (dataAcc : List (Int × Int))
    (nsAcc ncAcc hsAcc srAcc : List Int) :
    signalBlocksLoop (fuel + 1) s pos hdr dataAcc nsAcc ncAcc hsAcc srAcc =
    (if s = [] then finalizeCatalog hdr dataAcc nsAcc ncAcc hsAcc srAcc
    else
      match readI32 s with
      | none => none
      | some (flag, s1) =>
        if flag ≠ 0 then
          match readHeaderBlockRaw s1 with
          | none => none
          | some (h, s2) =>
            match skipBytes h.block_size s2 with
            | none => none
            | some s3 =>
              signalBlocksLoop fuel s3
                (pos + h.header_size + h.block_size) (some h)
                (dataAcc ++ [(pos + h.header_size, h.block_size)])
                (nsAcc ++ [h.num_samples]) (ncAcc ++ [h.num_channels])
                (hsAcc ++ [h.header_size]) (srAcc ++ [h.sampling_rate])
        else
          match hdr with
          | none => none
          | some h =>
            match skipBytes h.block_size s1 with
            | none => none
            | some s3 =>
              signalBlocksLoop fuel s3 (pos + 4 + h.block_size) (some h)
                (dataAcc ++ [(pos + 4, h.block_size)])
                (nsAcc ++ [h.num_samples]) ncAcc
                (hsAcc ++ [h.header_size]) srAcc) := rfl

/-- Running the block loop on a well-formed encoded block sequence with a
current header walks every block and accumulates exactly the rows of
`walkRows` (and the explicit headers for the channel/rate consistency
lists). -/
theorem signalBlocksLoop_encode (items : List (Option RawHB × List Nat))
    (cur : RawHB) (pos : Int) (fuel : Nat)
    (dataAcc : List (Int × Int)) (nsAcc ncAcc hsAcc srAcc : List Int)
    (hcur : hbWF cur) (hwf : itemsWF cur items)
    (hfuel : (encodeBlocks cur items).length < fuel) :
    signalBlocksLoop fuel (encodeBlocks cur items) pos (some cur)
      dataAcc nsAcc ncAcc hsAcc srAcc =
    finalizeCatalog (some (lastHeader cur items))
      (dataAcc ++ (walkRows pos cur items).map
        (fun r => (r.1, r.2.block_size)))
      (nsAcc ++ (walkRows pos cur items).map (fun r => r.2.num_samples))
      (ncAcc ++ (headersOf items).map RawHB.num_channels)
      (hsAcc ++ (walkRows pos cur items).map (fun r => r.2.header_size))
      (srAcc ++ (headersOf items).map RawHB.sampling_rate) := by
  induction items generalizing cur pos fuel dataAcc nsAcc ncAcc hsAcc srAcc
      hcur with
  | nil =>
    obtain ⟨f, rfl⟩ : ∃ f, fuel = f + 1 := ⟨fuel - 1, by omega⟩
    simp [encodeBlocks, signalBlocksLoop_succ, lastHeader, walkRows,
      headersOf]
  | cons x t ih =>
    obtain ⟨oh, p⟩ := x
    cases oh with
    | some h =>
      simp only [itemsWF] at hwf
      obtain ⟨hh, hp, ht⟩ := hwf
      have hbs0 : 0 ≤ h.block_size := hh.2.2.2.1
      obtain ⟨f, rfl⟩ : ∃ f, fuel = f + 1 := ⟨fuel - 1, by omega⟩
      have hlen : (encodeBlocks cur ((some h, p) :: t)).length =
          4 + (encodeRawHeader h).length + p.length +
            (encodeBlocks h t).length := by
        simp only [encodeBlocks, List.length_append, length_int32Wrap]
      have hne : encodeBlocks cur ((some h, p) :: t) ≠ [] := by
        intro hc
        have hl := congrArg List.length hc
        rw [hlen] at hl
        simp at hl
      have hdrop : (p ++ encodeBlocks h t).drop h.block_size.toNat =
          encodeBlocks h t := by
        rw [← hp]
        exact List.drop_left _ _
      rw [signalBlocksLoop_succ, if_neg hne]
      simp only [encodeBlocks, List.append_assoc]
      simp only [readI32_int32Wrap 1 _ (by omega) (by omega)]
      rw [if_pos (by norm_num : (1 : Int) ≠ 0)]
      simp only [readHeaderBlockRaw_encode h _ hh]
      simp only [skipBytes, if_pos hbs0, hdrop]
      rw [ih _ _ _ _ _ _ _ _ hh ht (by rw [hlen] at hfuel; omega)]
      simp only [walkRows, lastHeader, headersOf, List.filterMap_cons,
        List.map_cons, List.append_assoc, List.singleton_append,
        List.cons_append, List.nil_append]
    | none =>
      simp only [itemsWF] at hwf
      obtain ⟨hp, ht⟩ := hwf
      have hbs0 : 0 ≤ cur.block_size := hcur.2.2.2.1
      obtain ⟨f, rfl⟩ : ∃ f, fuel = f + 1 := ⟨fuel - 1, by omega⟩
      have hlen : (encodeBlocks cur ((none, p) :: t)).length =
          4 + p.length + (encodeBlocks cur t).length := by
        simp only [encodeBlocks, List.length_append, length_int32Wrap]
      have hne : encodeBlocks cur ((none, p) :: t) ≠ [] := by
        intro hc
        have hl := congrArg List.length hc
        rw [hlen] at hl
        simp at hl
      have hdrop : (p ++ encodeBlocks cur t).drop cur.block_size.toNat =
          encodeBlocks cur t := by
        rw [← hp]
        exact List.drop_left _ _
      rw [signalBlocksLoop_succ, if_neg hne]
      simp only [encodeBlocks, List.append_assoc]
      simp only [readI32_int32Wrap 0 _ (by omega) (by omega)]
      rw [if_neg (by norm_num : ¬((0 : Int) ≠ 0))]
      simp only [skipBytes, if_pos hbs0, hdrop]
      rw [ih _ _ _ _ _ _ _ _ hcur ht (by rw [hlen] at hfuel; omega)]
      simp only [walkRows, lastHeader, headersOf, List.filterMap_cons,
        List.map_cons, List.append_assoc, List.singleton_append,
        List.cons_append, List.nil_append]

/-- **C5.** A signal stream whose first block carries the reuse flag
(flag word 0) before any header has been read makes `signal_blocks` fail
(the source's `assert hdr is not None`, surfaced as a MissingHeader
error); a stream whose first block carries a header is walked
successfully, every reuse-flagged block inheriting the geometry of the
most recent header (`walkRows`), with the channel count and sampling
rate taken from the headers (all of which the source asserts agree). -/
theorem signalBlocks_spec
    (h0 : RawHB) (p0 : List Nat) (items : List (Option RawHB × List Nat))
    (hwf0 : hbWF h0) (hp0 : p0.length = h0.block_size.toNat)
    (hwf : itemsWF h0 items)
    (hnc : ∀ h ∈ headersOf items, h.num_channels = h0.num_channels)
    (hsr : ∀ h ∈ headersOf items, h.sampling_rate = h0.sampling_rate) :
    (∀ rest : List Nat, signalBlocks (int32Wrap 0 ++ rest) = none) ∧
    signalBlocks (encodeBlocks h0 ((some h0, p0) :: items)) =
      some ⟨(walkRows 0 h0 ((some h0, p0) :: items)).map
          (fun r => (r.1, r.2.block_size)),
        items.length + 1,
        (walkRows 0 h0 ((some h0, p0) :: items)).map
          (fun r => r.2.num_samples),
        h0.num_channels,
        (walkRows 0 h0 ((some h0, p0) :: items)).map
          (fun r => r.2.header_size),
        h0.sampling_rate⟩ := by
  constructor
  · intro rest
    have hne0 : int32Wrap 0 ++ rest ≠ [] := by
      intro hc
      have hl := congrArg List.length hc
      simp [length_int32Wrap] at hl
    unfold signalBlocks
    rw [signalBlocksLoop_succ, if_neg hne0]
    simp only [readI32_int32Wrap 0 _ (by omega) (by omega)]
    rw [if_neg (by norm_num : ¬((0 : Int) ≠ 0))]
  · have hbs0 : 0 ≤ h0.block_size := hwf0.2.2.2.1
    have hlen : (encodeBlocks h0 ((some h0, p0) :: items)).length =
        4 + (encodeRawHeader h0).length + p0.length +
          (encodeBlocks h0 items).length := by
      simp only [encodeBlocks, List.length_append, length_int32Wrap]
    have hne : encodeBlocks h0 ((some h0, p0) :: items) ≠ [] := by
      intro hc
      have hl := congrArg List.length hc
      rw [hlen] at hl
      simp at hl
    have hdrop : (p0 ++ encodeBlocks h0 items).drop h0.block_size.toNat =
        encodeBlocks h0 items := by
      rw [← hp0]
      exact List.drop_left _ _
    unfold signalBlocks
    rw [signalBlocksLoop_succ, if_neg hne]
    simp only [encodeBlocks, List.append_assoc]
    simp only [readI32_int32Wrap 1 _ (by omega) (by omega)]
    rw [if_pos (by norm_num : (1 : Int) ≠ 0)]
    simp only [readHeaderBlockRaw_encode h0 _ hwf0]
    simp only [skipBytes, if_pos hbs0, hdrop]
    rw [signalBlocksLoop_encode items h0 _ _ _ _ _ _ _ hwf0 hwf
      (by simp only [List.length_append, length_int32Wrap]; omega)]
    have hallnc : ((h0.num_channels ::
        (headersOf items).map RawHB.num_channels).all
        fun n => n == (h0.num_channels ::
          (headersOf items).map RawHB.num_channels).headD 0) = true := by
      simp only [List.headD_cons, List.all_eq_true, beq_iff_eq]
      intro x hx
      rcases List.mem_cons.mp hx with hx | hx
      · exact hx
      · obtain ⟨g, hg, rfl⟩ := List.mem_map.mp hx
        exact hnc g hg
    have hallsr : ((h0.sampling_rate ::
        (headersOf items).map RawHB.sampling_rate).all
        fun r => r == (h0.sampling_rate ::
          (headersOf items).map RawHB.sampling_rate).headD 0) = true := by
      simp only [List.headD_cons, List.all_eq_true, beq_iff_eq]
      intro x hx
      rcases List.mem_cons.mp hx with hx | hx
      · exact hx
      · obtain ⟨g, hg, rfl⟩ := List.mem_map.mp hx
        exact hsr g hg
    simp only [finalizeCatalog, List.singleton_append, List.nil_append]
    rw [if_neg (by simp : ¬(h0.num_samples ::
      (walkRows (0 + h0.header_size + h0.block_size) h0 items).map
        (fun r => r.2.num_samples) = []))]
    rw [if_neg (not_not_intro hallnc), if_neg (not_not_intro hallsr)]
    simp only [walkRows, List.map_cons, List.length_cons, List.length_map,
      walkRows_length, List.headD_cons]

theorem signalBlocks_spec_witness :
    signalBlocks (int32Wrap 0 ++ [9, 9]) = none ∧
    signalBlocks (encodeBlocks ⟨24, 4, 1, 1, 250⟩
        [(some ⟨24, 4, 1, 1, 250⟩, [1, 2, 3, 4]), (none, [5, 6, 7, 8])]) =
      some ⟨[(24, 4), (32, 4)], 2, [1, 1], 1, [24, 24], 250⟩ := by
  have h := signalBlocks_spec ⟨24, 4, 1, 1, 250⟩ [1, 2, 3, 4]
    [(none, [5, 6, 7, 8])] (by unfold hbWF; decide) (by decide)
    ⟨rfl, trivial⟩ (by simp [headersOf]) (by simp [headersOf])
  refine ⟨h.1 [9, 9], ?_⟩
  rw [h.2]
  rfl

/-! ### The Reader façade (`src/mffpy/reader.py`) -/

/-- Modelled from the spec: the calibrated `BinFile` of §4.4 is absent from
the `src/` copy of `bin_files.py` (which holds an older, uncalibrated
class); per the spec it carries a mutable `unit` (default `µV`, written
`uV`) and a `calibration` name (default `GCAL`) that scale
`get_physical_samples`. -/
structure BinFile where
  signal_type : String
  unit : String
  calibration : String
  deriving DecidableEq, Repr

/-- The persistent state of `reader.Reader`: `__init__` stores only the
directory.  The directory is reduced to the channel types of its
signal/info pairs, which is all `_blobs` derives from it. -/
structure ReaderState where
  directory : List String
  deriving DecidableEq, Repr

/-- The body of the `Reader._blobs` property: build a fresh `BinFile` (with
default unit and calibration) for every signal/info pair of the
directory.  In `reader.py` `_blobs` is declared with plain `@property`, so
this runs anew on every access. -/
def readerBlobs (r : ReaderState) : List (String × BinFile) :=
  r.directory.map fun ct => (ct, ⟨ct, "uV", "GCAL"⟩)

/-- `Reader.set_unit`: `self._blobs[channel_type].unit = unit`.  The
returned pair is the (unchanged) reader and the dictionary the property
just built, whose matching entry was mutated — and which no field of the
reader retains. -/
def readerSetUnit (r : ReaderState) (channel_type unit : String) :
    ReaderState × List (String × BinFile) :=
  (r, (readerBlobs r).map fun p =>
    if p.1 = channel_type then (p.1, { p.2 with unit := unit }) else p)

/-- The unit that scales each channel type in a subsequent
`get_physical_samples` call, which re-reads `self._blobs`. -/
def queryUnits (r : ReaderState) : List (String × String) :=
  (readerBlobs r).map fun p => (p.1, p.2.unit)

/--
C7 (evaluating the code at the failing input): because `reader.py` declares
`_blobs` as a plain property, `set_unit` mutates a `BinFile` that only the
discarded fresh dictionary references: the reader is left unchanged, and a
later `get_physical_samples` builds new `BinFile`s and scales with the
default unit.  Concretely: over a recording with one `EEG` stream,
`set_unit("EEG", "V")` sets the unit on the just-built dictionary, yet the
subsequent query still uses `uV` — the claim (with `src/mffpy/__init__.py`
caching `_blobs`, the spec, and `set_unit`'s own docstring) expects `V`.
-/
theorem reader_setUnit_ineffective :
    (∀ (r : ReaderState) (ct u : String),
      (readerSetUnit r ct u).1 = r ∧
      queryUnits (readerSetUnit r ct u).1 = queryUnits r) ∧
    (readerSetUnit ⟨["EEG"]⟩ "EEG" "V").2 =
      [("EEG", ⟨"EEG", "V", "GCAL"⟩)] ∧
    queryUnits (readerSetUnit ⟨["EEG"]⟩ "EEG" "V").1 = [("EEG", "uV")] ∧
    "uV" ≠ "V" :=
  ⟨fun r ct u => ⟨rfl, rfl⟩, by rfl, by rfl, by decide⟩

/-- C10 witness: a two-epoch document with names `"x"` and `"x"`; index 1
returns the second epoch, the ambiguous name `"x"` returns both matches,
and a key of another type fails. -/
theorem epochsGetItem_spec_witness :
    epochsGetItem [⟨0, 1, 1, 1, "x"⟩, ⟨2, 3, 2, 2, "x"⟩] (.int 1) =
      some (.one ⟨2, 3, 2, 2, "x"⟩) ∧
    epochsGetItem [⟨0, 1, 1, 1, "x"⟩, ⟨2, 3, 2, 2, "x"⟩] (.str "x") =
      some (.many [⟨0, 1, 1, 1, "x"⟩, ⟨2, 3, 2, 2, "x"⟩]) ∧
    epochsGetItem [⟨0, 1, 1, 1, "x"⟩, ⟨2, 3, 2, 2, "x"⟩] .other = none := by
  have h := epochsGetItem_spec [⟨0, 1, 1, 1, "x"⟩, ⟨2, 3, 2, 2, "x"⟩]
  refine ⟨?_, ?_, h.2.2.2⟩
  · exact (h.1 1 (by norm_num)).trans (by rfl)
  · exact (h.2.2.1 "x" (by decide)).trans (by rfl)

end Mffpy
